import Mathlib

/-!
Shallow embedding of the hotcore entity model (src/hotcore/model.py).

The backing store (Redis) is modelled as a single keyspace mapping string
keys to values that are either a hash (field-value record), a plain string,
or a set of strings, exactly the three kinds of structures the source uses.
The store-side primitives (HSET/HDEL/HGETALL, SET/GET/DEL, SADD/SREM/
SMEMBERS/SINTER/SUNIONSTORE, key SCAN by glob pattern) are modelled
per the spec's description of the backing store as an external collaborator:
empty aggregates are deleted, set members are unique, SCAN enumerates all
keys matching the glob.  All attribute values are scalar strings, matching
the spec's data model.  Python dictionaries are association lists whose
values are `Option String`, with `none` standing for Python `None` (the
absent marker); Redis hashes are association lists of plain strings.
-/

namespace Hotcore

/-- Association list with string keys, used both for Redis hashes and, with
`Option String` values, for Python dictionaries. -/
abbrev AList := List (String × String)

/-- Python dictionary: keys to scalar values, `none` models Python `None`. -/
abbrev PyDict := List (String × Option String)

/-- Lookup of the (first) binding of a key, like Python `d.get(k)` /
Redis hash field access. -/
def alookup {β : Type} : List (String × β) → String → Option β
  | [], _ => none
  | (k', v) :: rest, k => if k' = k then some v else alookup rest k

/-- Dictionary update `d[k] = v`: replace in place or append at the end,
matching Python insertion-order semantics and Redis HSET on one field. -/
def aset {β : Type} : List (String × β) → String → β → List (String × β)
  | [], k, v => [(k, v)]
  | (k', v') :: rest, k, v =>
    if k' = k then (k, v) :: rest else (k', v') :: aset rest k v

/-- Dictionary deletion `del d[k]` / Redis HDEL of one field. -/
def adel {β : Type} : List (String × β) → String → List (String × β)
  | [], _ => []
  | (k', v') :: rest, k =>
    if k' = k then adel rest k else (k', v') :: adel rest k

/-- A value stored at a Redis key: hash, plain string, or set. -/
inductive RVal : Type where
  | hstr (h : AList)
  | vstr (v : String)
  | vset (m : List String)
deriving DecidableEq

/-- The whole keyspace of the backing store, in key-creation order. -/
abbrev Store := List (String × RVal)

/-- Raw key lookup in the keyspace. -/
def findK : Store → String → Option RVal
  | [], _ => none
  | (k', v) :: rest, k => if k' = k then some v else findK rest k

/-- Write a value at a key, updating in place or appending. -/
def writeK : Store → String → RVal → Store
  | [], k, v => [(k, v)]
  | (k', v') :: rest, k, v =>
    if k' = k then (k, v) :: rest else (k', v') :: writeK rest k v

/-- Delete a key (Redis DEL and the automatic removal of empty aggregates). -/
def eraseKey (s : Store) (k : String) : Store :=
  s.filter (fun kv => decide (kv.1 ≠ k))

/-- All keys currently present in the store, for SCAN. -/
def storeKeys (s : Store) : List String := s.map (·.1)

/-- The hash stored at a key, empty if the key is absent (Redis HGETALL). -/
def hashAt (s : Store) (k : String) : AList :=
  match findK s k with
  | some (.hstr h) => h
  | _ => []

/-- The plain string stored at a key, if any (Redis GET). -/
def strAt (s : Store) (k : String) : Option String :=
  match findK s k with
  | some (.vstr v) => some v
  | _ => none

/-- The set stored at a key, empty if the key is absent (Redis SMEMBERS). -/
def setAt (s : Store) (k : String) : List String :=
  match findK s k with
  | some (.vset m) => m
  | _ => []

/-- Set insertion with unique membership (Redis SADD of one member). -/
def addElem (m : List String) (x : String) : List String :=
  if x ∈ m then m else m ++ [x]

/-- Set removal (Redis SREM of one member). -/
def removeElem (m : List String) (x : String) : List String :=
  m.filter (fun y => decide (y ≠ x))

/-- Redis HSET with a field-value mapping, fields written in mapping (dict
insertion) order.  The Python client refuses an empty mapping with
DataError before anything is sent (modelled in `createOp`; the source's
`_update_entity_indexes` guards with `if updates:` itself), so no
operation ever reaches the store with an empty mapping; the identity
branch below only keeps this store-level transition total. -/
def hset (s : Store) (k : String) (m : AList) : Store :=
  if m.isEmpty then s
  else writeK s k (.hstr (m.foldl (fun h kv => aset h kv.1 kv.2) (hashAt s k)))

/-- Redis HDEL of one field; a hash left empty is removed from the keyspace. -/
def hdel (s : Store) (k f : String) : Store :=
  let h := adel (hashAt s k) f
  if h.isEmpty then eraseKey s k else writeK s k (.hstr h)

/-- Redis SET of a plain string key. -/
def setStr (s : Store) (k v : String) : Store := writeK s k (.vstr v)

/-- Redis SADD of one member. -/
def sadd (s : Store) (k x : String) : Store :=
  writeK s k (.vset (addElem (setAt s k) x))

/-- Redis SREM of one member; a set left empty is removed from the keyspace. -/
def srem (s : Store) (k x : String) : Store :=
  let m := removeElem (setAt s k) x
  if m.isEmpty then eraseKey s k else writeK s k (.vset m)

/-- Redis SINTER over a list of set keys; result is the members of the first
set also present in all the others (empty for an empty key list). -/
def sinterList (s : Store) : List String → List String
  | [] => []
  | k :: ks => (setAt s k).filter (fun x => ks.all (fun k' => (setAt s k').contains x))

/-- Redis SUNIONSTORE: union of the named sets stored at a destination key;
returns the updated store and the cardinality of the union.  An empty union
deletes the destination key, as Redis does. -/
def sunionstore (s : Store) (dest : String) (keys : List String) : Store × Nat :=
  let u := keys.foldl (fun acc k => (setAt s k).foldl addElem acc) []
  (if u.isEmpty then eraseKey s dest else writeK s dest (.vset u), u.length)

/-!  Key generation (RedisConnectionManager), with the source's literal
f-string keyspace scheme: `e:` entity hash, `w:` watch/version token,
`p:` parent pointer, `c:` children set, `i:` attribute index, `u:` unique
temporary set. -/

/-- Key of an entity's attribute hash (`get_entity_key`). -/
def entityKey (u : String) : String := "e:" ++ u

/-- Key of an entity's optimistic-locking watch token (`get_watch_key`). -/
def watchKey (u : String) : String := "w:" ++ u

/-- Key of an entity's parent pointer (`get_parent_key`). -/
def parentKey (u : String) : String := "p:" ++ u

/-- Key of an entity's children set (`get_children_key`). -/
def childrenKey (u : String) : String := "c:" ++ u

/-- Key of an attribute index set (`get_index_key`). -/
def indexKey (attr value : String) : String := "i:" ++ attr ++ ":" ++ value

/-- Temporary unique set key (`get_unique_set_key`); the random uuid4 suffix
is supplied externally as a string. -/
def uniqueSetKey (sfx : String) : String := "u:" ++ sfx

/-- Index scan pattern built by `find` for a wildcard criterion: the `i:`
tag, the attribute name, a colon, and the glob over the value. -/
def indexPattern (attr value : String) : String := "i:" ++ attr ++ ":" ++ value

/-- Python `str(x)` of an optional string, as used when an identifier taken
from a dictionary is interpolated into a key f-string. -/
def pyStr : Option String → String
  | none => "None"
  | some s => s

/-- An attribute name with no colon; for such names the index keyspace
mapping is injective. -/
def colonFree (x : String) : Bool := x.data.all (fun c => decide (c ≠ ':'))

/-!  Glob matching.  Modelled from the spec: the backing store's key SCAN
accepts `*` (any run of characters), `?` (single character) and `[...]`
(character class, with ranges and `^` negation), evaluated over whole keys.
The pattern is parsed into tokens first, then matched. -/

/-- One token of a glob pattern. -/
inductive GTok : Type where
  | star
  | que
  | lit (c : Char)
  | cls (spec : List Char)
deriving DecidableEq

mutual

/-- Parse a glob pattern into tokens. -/
def parseGlob : List Char → List GTok
  | [] => []
  | c :: r =>
    if c = '*' then GTok.star :: parseGlob r
    else if c = '?' then GTok.que :: parseGlob r
    else if c = '[' then parseCls [] r
    else GTok.lit c :: parseGlob r

/-- Parse the body of a character class up to the closing bracket. -/
def parseCls (acc : List Char) : List Char → List GTok
  | [] => [GTok.cls acc]
  | c :: r => if c = ']' then GTok.cls acc :: parseGlob r else parseCls (acc ++ [c]) r

end

/-- Membership of a character in a class body, with `a-b` ranges. -/
def classHas : List Char → Char → Bool
  | a :: '-' :: b :: rest, c => (decide (a ≤ c) && decide (c ≤ b)) || classHas rest c
  | a :: rest, c => (a == c) || classHas rest c
  | [], _ => false

/-- Character-class matching, honouring a leading `^` negation. -/
def classMatch (spec : List Char) (c : Char) : Bool :=
  match spec with
  | '^' :: rest => !classHas rest c
  | _ => classHas spec c

/-- Token-level glob matching, driven by explicit fuel so that it reduces by
unfolding; each step consumes a token or a character, so fuel exceeding
their combined count never runs out. -/
def gmatchF : Nat → List GTok → List Char → Bool
  | 0, _, _ => false
  | _ + 1, [], [] => true
  | fuel + 1, GTok.star :: ts, [] => gmatchF fuel ts []
  | _ + 1, _ :: _, [] => false
  | _ + 1, [], _ :: _ => false
  | fuel + 1, GTok.star :: ts, c :: cs =>
    gmatchF fuel ts (c :: cs) || gmatchF fuel (GTok.star :: ts) cs
  | fuel + 1, GTok.que :: ts, _ :: cs => gmatchF fuel ts cs
  | fuel + 1, GTok.lit a :: ts, c :: cs => (a == c) && gmatchF fuel ts cs
  | fuel + 1, GTok.cls spec :: ts, c :: cs => classMatch spec c && gmatchF fuel ts cs

/-- Token-level glob matching with sufficient fuel. -/
def gmatch (ts : List GTok) (s : List Char) : Bool :=
  gmatchF (ts.length + s.length + 1) ts s

/-- Glob matching of a pattern against a key, both strings. -/
def globMatchStr (pattern key : String) : Bool :=
  gmatch (parseGlob pattern.data) key.data

/-- Key-space SCAN: all keys of the store matching a glob pattern, in
keyspace order. -/
def scanKeys (s : Store) (pattern : String) : List String :=
  (storeKeys s).filter (fun k => globMatchStr pattern k)

/-!  EntityStorage operations, translated from src/hotcore/model.py.
Each public operation returns `Except Err _`; spec error names are used for
the exceptions surfaced by the source (`InvalidEntity` for the missing-
identifier TypeError/KeyError, `NotFound` for get_parent's ValueError,
`ConcurrencyExhausted` for the re-raised WatchError after the retry bound).
Transactions are modelled by their committed sequential effect. -/

/-- Error taxonomy of the engine, per the spec's names, plus the Python
client's own DataError: redis-py refuses an HSET with an empty mapping
("hset with no key value pairs") and refuses to encode a None value, in
both cases raising before anything is sent to the store; the source's
except-clause re-raises it like any other RedisError. -/
inductive Err : Type where
  | invalidEntity
  | notFound
  | concurrencyExhausted
  | dataError
deriving DecidableEq

/-- The attribute pairs of a Python dict that carry concrete (non-None)
values, in dict order; scalar string values only, per the data model.
`createOp` rejects dictionaries holding a `None` value before using this,
so there it never discards anything. -/
def concreteAttrs (d : PyDict) : AList :=
  d.filterMap (fun kv => kv.2.map (fun v => (kv.1, v)))

/-- EntityStorage.get: HGETALL of the entity hash, then the identifier is
put back under the `uuid` key (a tombstone record when the hash is empty). -/
def getOp (s : Store) (u : String) : AList :=
  aset (hashAt s (entityKey u)) "uuid" u

/-- Committed effect of EntityStorage.create's transaction: store the
attribute mapping (identifier excluded), SADD the identifier into the index
of every attribute pair, SET the parent pointer, SADD the identifier into
the parent's children set. -/
def createS (s : Store) (parent u : String) (attrs : AList) : Store :=
  let s1 := hset s (entityKey u) attrs
  let s2 := attrs.foldl (fun st kv => sadd st (indexKey kv.1 kv.2) u) s1
  let s3 := setStr s2 (parentKey u) parent
  sadd s3 (childrenKey parent) u

/-- EntityStorage.create: `entity.get('uuid')` must not be `None` (missing
key and explicit `None` both fail with the TypeError the spec calls
InvalidEntity); then the transaction body runs on a copy of the entity
with the `uuid` key deleted.  The client raises DataError, with nothing
written, when that copy is an empty mapping (`hset` refuses it) or carries
a `None` value (the encoder refuses it); otherwise the transaction commits
and the entity is returned as given. -/
def createOp (s : Store) (parent : String) (entity : PyDict) :
    Except Err (Store × PyDict) :=
  match alookup entity "uuid" with
  | some (some u) =>
    let copy := adel entity "uuid"
    if copy.isEmpty then .error .dataError
    else if copy.any (fun kv => kv.2.isNone) then .error .dataError
    else .ok (createS s parent u (concreteAttrs copy), entity)
  | _ => .error .invalidEntity

/-- EntityStorage._remove_entity_attributes: for each key present in the
snapshot, HDEL the field and SREM the identifier from the index of the
snapshot value.  Snapshot hash values are always concrete strings, so the
source's `old_value is not None` cannot fail here. -/
def removeAttrs (s : Store) (u : String) (old : AList) (keys : List String) :
    Store :=
  keys.foldl
    (fun st k =>
      match alookup old k with
      | some ov => srem (hdel st (entityKey u) k) (indexKey k ov) u
      | none => st)
    s

/-- EntityStorage._update_entity_indexes: if there are updates, HSET them,
then for each updated pair SREM the identifier from the index of the old
value (when the key existed in the snapshot) and SADD it into the index of
the new value. -/
def updateIndexes (s : Store) (u : String) (old : AList) (updates : AList) :
    Store :=
  if updates.isEmpty then s
  else
    let s1 := hset s (entityKey u) updates
    updates.foldl
      (fun st kv =>
        let st1 :=
          match alookup old kv.1 with
          | some ov => srem st (indexKey kv.1 ov) u
          | none => st
        sadd st1 (indexKey kv.1 kv.2) u)
      s1

/-- Keys of a change mapped to the absent marker (`None`), identifier key
excluded: the attributes `apply` removes. -/
def removalsOf (change : PyDict) : List String :=
  (change.filter (fun kv => kv.2.isNone && !(kv.1 == "uuid"))).map (·.1)

/-- Pairs of a change carrying concrete values, identifier key excluded:
the attributes `apply` updates. -/
def updatesOf (change : PyDict) : AList :=
  change.filterMap
    (fun kv => if kv.1 = "uuid" then none else kv.2.map (fun v => (kv.1, v)))

/-- Committed effect of one successful EntityStorage.apply attempt: snapshot
the entity hash, touch the watch token, process removals, process updates. -/
def applyChange (s : Store) (u : String) (change : PyDict) : Store :=
  let old := hashAt s (entityKey u)
  let s1 := setStr s (watchKey u) ""
  let s2 := removeAttrs s1 u old (removalsOf change)
  updateIndexes s2 u old (updatesOf change)

/-- EntityStorage.apply without concurrent interference: the change must
contain a `uuid` key (KeyError otherwise, even for a `None` identifier,
which is then interpolated into keys as the string `None`). -/
def applyOp (s : Store) (change : PyDict) : Except Err Store :=
  match alookup change "uuid" with
  | none => .error .invalidEntity
  | some uv => .ok (applyChange s (pyStr uv) change)

/-- Committed effect of one successful EntityStorage.delete attempt:
snapshot the hash and the parent pointer, touch the watch token, remove
every attribute and its index membership, HDEL the literal field `*`,
delete the watch and parent keys, SREM the literal member `*` from this
entity's children set, and unlink the entity from a truthy parent's
children set. -/
def deleteS (s : Store) (u : String) : Store :=
  let old := hashAt s (entityKey u)
  let parentU := strAt s (parentKey u)
  let s1 := setStr s (watchKey u) ""
  let s2 := removeAttrs s1 u old (old.map (·.1))
  let s3 := hdel s2 (entityKey u) "*"
  let s4 := eraseKey s3 (watchKey u)
  let s5 := eraseKey s4 (parentKey u)
  let s6 := srem s5 (childrenKey u) "*"
  match parentU with
  | some p => if p = "" then s6 else srem s6 (childrenKey p) u
  | none => s6

/-- EntityStorage.delete without concurrent interference: the entity must
contain a `uuid` key (KeyError otherwise). -/
def deleteOp (s : Store) (entity : PyDict) : Except Err Store :=
  match alookup entity "uuid" with
  | none => .error .invalidEntity
  | some uv => .ok (deleteS s (pyStr uv))

/-- EntityRelationship.get_parent: read the parent pointer (ValueError when
missing or falsy), then resolve it to a record, tombstone-style when the
parent entity has no attributes. -/
def getParentOp (s : Store) (child : String) : Except Err AList :=
  match strAt s (parentKey child) with
  | none => .error .notFound
  | some p =>
    if p = "" then .error .notFound
    else .ok (aset (hashAt s (entityKey p)) "uuid" p)

/-!  The optimistic retry loop shared by `apply` and `delete`:
`retry_count` starts at 0 with `max_retries = 3`; a WatchError increments
the count and re-raises once the count reaches the bound, so at most three
attempts run, and only a conflict-free attempt commits (from the snapshot
taken in that same attempt).  `conflict n` says whether the watch token was
touched concurrently during attempt `n`, and `states n` is the store
contents observed by attempt `n`. -/

/-- The bounded optimistic retry loop, parameterized by the committed effect
of a successful attempt; `fuel` is `max_retries - retry_count`. -/
def runAttempts (conflict : Nat → Bool) (commit : Nat → Store) :
    Nat → Nat → Except Err Store
  | _, 0 => .error .concurrencyExhausted
  | attempt, fuel + 1 =>
    if conflict attempt then
      if fuel = 0 then .error .concurrencyExhausted
      else runAttempts conflict commit (attempt + 1) fuel
    else .ok (commit attempt)

/-- The source's retry bound (`max_retries`). -/
def maxRetries : Nat := 3

/-- EntityStorage.apply under concurrent interference. -/
def applyWithRetry (conflict : Nat → Bool) (states : Nat → Store)
    (change : PyDict) : Except Err Store :=
  match alookup change "uuid" with
  | none => .error .invalidEntity
  | some uv =>
    runAttempts conflict (fun n => applyChange (states n) (pyStr uv) change)
      0 maxRetries

/-- EntityStorage.delete under concurrent interference. -/
def deleteWithRetry (conflict : Nat → Bool) (states : Nat → Store)
    (entity : PyDict) : Except Err Store :=
  match alookup entity "uuid" with
  | none => .error .invalidEntity
  | some uv =>
    runAttempts conflict (fun n => deleteS (states n) (pyStr uv)) 0 maxRetries

/-!  EntitySearch.find.  Criteria are processed in order; `parent` resolves
to a children-set key, wildcard values SCAN the keyspace for matching index
keys and union them into a fresh ephemeral `u:` set (the uuid4
suffixes are supplied as a stream `sfx`), and plain values resolve to exact
index keys.  A wildcard criterion with no matching key, or with an empty
union, short-circuits the whole query; so does an empty criteria list.
EXPIRE on the ephemeral set does not change its contents and is not
modelled. -/

/-- Accumulate the per-criterion filter keys, returning `none` on a
short-circuit; threads the store (ephemeral union sets), the suffix
counter, and the accumulated filter list. -/
def findFilters (sfx : Nat → String) :
    List (String × String) → Store → Nat → List String →
    Option (Store × Nat × List String)
  | [], s, n, acc => some (s, n, acc)
  | (k, v) :: rest, s, n, acc =>
    if k = "parent" then findFilters sfx rest s n (acc ++ [childrenKey v])
    else if v.data.contains '*' || v.data.contains '?' || v.data.contains '[' then
      let pat := indexPattern k v
      let ms := scanKeys s pat
      if ms.isEmpty then none
      else
        let ukey := uniqueSetKey (sfx n)
        let us := sunionstore s ukey ms
        if 0 < us.2 then findFilters sfx rest us.1 (n + 1) (acc ++ [ukey])
        else none
  else findFilters sfx rest s n (acc ++ [indexKey k v])

/-- EntitySearch.find: resolve the filter keys, SINTER them, and resolve
each resulting identifier to a record through HGETALL plus the identifier. -/
def find (s : Store) (sfx : Nat → String) (criteria : List (String × String)) :
    List AList :=
  match findFilters sfx criteria s 0 [] with
  | none => []
  | some (s1, _, filters) =>
    if filters.isEmpty then []
    else
      (sinterList s1 filters).map
        (fun u => aset (hashAt s1 (entityKey u)) "uuid" u)

/-!  Reachability and the index-consistency invariant. -/

/-- States reachable from the flushed store through successful create, apply
and delete operations, exactly as the code allows them. -/
inductive Reachable : Store → Prop where
  | empty : Reachable []
  | create {s s' : Store} {p : String} {e r : PyDict} :
      Reachable s → createOp s p e = .ok (s', r) → Reachable s'
  | applyc {s s' : Store} {c : PyDict} :
      Reachable s → applyOp s c = .ok s' → Reachable s'
  | delete {s s' : Store} {e : PyDict} :
      Reachable s → deleteOp s e = .ok s' → Reachable s'

/-- Attribute lists that are genuine Python dict contents with colon-free
attribute names: keys unique, every name free of `:`. -/
def goodAttrs (attrs : AList) : Prop :=
  (attrs.map (·.1)).Nodup ∧ ∀ kv ∈ attrs, colonFree kv.1 = true

/-- Change dictionaries with unique keys whose non-identifier keys are
colon-free. -/
def goodChange (change : PyDict) : Prop :=
  (change.map (·.1)).Nodup ∧ ∀ kv ∈ change, kv.1 ≠ "uuid" → colonFree kv.1 = true

/-- States reachable when every create uses a fresh identifier (no existing
attribute hash) and all attribute names are colon-free dict keys: the
discipline under which the index invariant is preserved. -/
inductive ReachableWF : Store → Prop where
  | empty : ReachableWF []
  | create {s : Store} {p u : String} {attrs : AList} :
      ReachableWF s → goodAttrs attrs → hashAt s (entityKey u) = [] →
      ReachableWF (createS s p u attrs)
  | applyc {s : Store} {u : String} {change : PyDict} :
      ReachableWF s → goodChange change →
      ReachableWF (applyChange s u change)
  | delete {s : Store} {u : String} :
      ReachableWF s → ReachableWF (deleteS s u)

/-- The index-consistency invariant: an entity holds value `v` for a
colon-free attribute name `k` exactly when its identifier is a member of
`index(k, v)`. -/
def IndexInv (s : Store) : Prop :=
  ∀ u k v, colonFree k = true →
    (alookup (hashAt s (entityKey u)) k = some v ↔ u ∈ setAt s (indexKey k v))

/-!  Concrete scenario stores used by claim-level evaluations. -/

/-- A grandparent `g1` under `root`, an entity `e1` under it, and two
children `c1`, `c2` of `e1`. -/
def famStore : Store :=
  createS
    (createS
      (createS (createS [] "root" "g1" [("name", "G")]) "g1" "e1" [("name", "E")])
      "e1" "c1" [("name", "C1")])
    "e1" "c2" [("name", "C2")]

/-- The family store after deleting `e1`. -/
def famAfter : Store := deleteS famStore "e1"

/-- Three entities under `root` whose `name` attribute takes exactly the
values Alice, Anna and Bob. -/
def namesStore : Store :=
  createS
    (createS (createS [] "root" "a1" [("name", "Alice")]) "root" "a2"
      [("name", "Anna")])
    "root" "b1" [("name", "Bob")]

/-- The store produced by creating the same identifier twice with different
values for the same attribute. -/
def dupStore : Store :=
  createS (createS [] "root" "x" [("k", "v1")]) "root" "x" [("k", "v2")]

/-!  Association-list lemmas. -/

theorem alookup_aset_self {β : Type} (h : List (String × β)) (k : String) (v : β) :
    alookup (aset h k v) k = some v := by
  induction h with
  | nil => simp [aset, alookup]
  | cons kv rest ih =>
    obtain ⟨k', v'⟩ := kv
    by_cases hk : k' = k
    · simp [aset, hk, alookup]
    · simp [aset, hk, alookup, ih]

theorem alookup_aset_ne {β : Type} (h : List (String × β)) {k k' : String} (v : β)
    (hne : k' ≠ k) : alookup (aset h k v) k' = alookup h k' := by
  have hne' : ¬(k = k') := fun hh => hne hh.symm
  induction h with
  | nil => simp [aset, alookup, hne']
  | cons kv rest ih =>
    obtain ⟨k0, v0⟩ := kv
    by_cases hk : k0 = k
    · subst hk
      simp [aset, alookup, hne']
    · simp [aset, hk, alookup, ih]

theorem alookup_adel_self {β : Type} (h : List (String × β)) (k : String) :
    alookup (adel h k) k = none := by
  induction h with
  | nil => simp [adel, alookup]
  | cons kv rest ih =>
    obtain ⟨k0, v0⟩ := kv
    by_cases hk : k0 = k
    · simp [adel, hk, ih]
    · simp [adel, hk, alookup, ih]

theorem alookup_adel_ne {β : Type} (h : List (String × β)) {k k' : String}
    (hne : k' ≠ k) : alookup (adel h k) k' = alookup h k' := by
  have hne' : ¬(k = k') := fun hh => hne hh.symm
  induction h with
  | nil => simp [adel]
  | cons kv rest ih =>
    obtain ⟨k0, v0⟩ := kv
    by_cases hk : k0 = k
    · subst hk
      simp [adel, alookup, hne', ih]
    · simp [adel, hk, alookup, ih]

theorem alookup_eq_none_iff {β : Type} (h : List (String × β)) (k : String) :
    alookup h k = none ↔ k ∉ h.map (·.1) := by
  induction h with
  | nil => simp [alookup]
  | cons kv rest ih =>
    obtain ⟨k0, v0⟩ := kv
    by_cases hk : k0 = k
    · subst hk
      simp [alookup]
    · have hk' : ¬(k = k0) := fun hh => hk hh.symm
      simp only [alookup, hk, if_false, List.map_cons, List.mem_cons, ih]
      constructor
      · intro hnot hor
        rcases hor with hor | hor
        · exact hk' hor
        · exact hnot hor
      · intro hnot hmem
        exact hnot (Or.inr hmem)

theorem alookup_mem {β : Type} {h : List (String × β)} {k : String} {v : β}
    (hl : alookup h k = some v) : (k, v) ∈ h := by
  induction h with
  | nil => simp [alookup] at hl
  | cons kv rest ih =>
    obtain ⟨k0, v0⟩ := kv
    by_cases hk : k0 = k
    · subst hk
      simp [alookup] at hl
      simp [hl]
    · simp [alookup, hk] at hl
      exact List.mem_cons_of_mem _ (ih hl)

theorem mem_alookup {β : Type} {h : List (String × β)} {k : String} {v : β}
    (hmem : (k, v) ∈ h) (hnd : (h.map (·.1)).Nodup) : alookup h k = some v := by
  induction h with
  | nil => simp at hmem
  | cons kv rest ih =>
    obtain ⟨k0, v0⟩ := kv
    have hnd' := List.nodup_cons.mp hnd
    rcases List.mem_cons.mp hmem with heq | htail
    · cases heq
      simp [alookup]
    · have hk : ¬(k0 = k) := by
        intro hh
        subst hh
        exact hnd'.1 (List.mem_map_of_mem (·.1) htail)
      simp [alookup, hk, ih htail hnd'.2]

theorem aset_fresh {β : Type} (h : List (String × β)) {k : String} (v : β)
    (hfresh : k ∉ h.map (·.1)) : aset h k v = h ++ [(k, v)] := by
  induction h with
  | nil => simp [aset]
  | cons kv rest ih =>
    obtain ⟨k0, v0⟩ := kv
    have h1 : k ∉ rest.map (·.1) := fun hh =>
      hfresh (List.mem_cons_of_mem _ hh)
    have h2 : ¬(k0 = k) := by
      intro hh
      exact hfresh (by simp [hh])
    simp [aset, h2, ih h1]

theorem foldl_aset_fresh {β : Type} (m : List (String × β)) :
    ∀ h : List (String × β), (m.map (·.1)).Nodup →
      (∀ x ∈ m.map (·.1), x ∉ h.map (·.1)) →
      m.foldl (fun a kv => aset a kv.1 kv.2) h = h ++ m := by
  induction m with
  | nil => simp
  | cons kv rest ih =>
    intro h hnd hfresh
    obtain ⟨k0, v0⟩ := kv
    have hnd' := List.nodup_cons.mp hnd
    have hk0 : k0 ∉ h.map (·.1) := hfresh k0 (by simp)
    have h1 : aset h k0 v0 = h ++ [(k0, v0)] := aset_fresh h v0 hk0
    have h2 : ∀ x ∈ rest.map (·.1), x ∉ (h ++ [(k0, v0)]).map (·.1) := by
      intro x hx hmem
      rw [List.map_append] at hmem
      rcases List.mem_append.mp hmem with hmem | hmem
      · exact hfresh x (List.mem_cons_of_mem _ hx) hmem
      · have hx0 : x = k0 := by simp at hmem; exact hmem
        subst hx0
        exact hnd'.1 hx
    calc ((k0, v0) :: rest).foldl (fun a kv => aset a kv.1 kv.2) h
        = rest.foldl (fun a kv => aset a kv.1 kv.2) (h ++ [(k0, v0)]) := by
          simp [h1]
      _ = (h ++ [(k0, v0)]) ++ rest := ih (h ++ [(k0, v0)]) hnd'.2 h2
      _ = h ++ ((k0, v0) :: rest) := by simp

theorem alookup_foldl_aset_of_none {β : Type} (m : List (String × β)) :
    ∀ h : List (String × β), ∀ {k : String}, alookup m k = none →
      alookup (m.foldl (fun a kv => aset a kv.1 kv.2) h) k = alookup h k := by
  induction m with
  | nil => intro h k _; rfl
  | cons kv rest ih =>
    intro h k hnone
    obtain ⟨k0, v0⟩ := kv
    by_cases hk : k0 = k
    · simp [alookup, hk] at hnone
    · simp only [alookup, hk, if_false] at hnone
      have hne : k ≠ k0 := fun hh => hk hh.symm
      calc alookup (((k0, v0) :: rest).foldl (fun a kv => aset a kv.1 kv.2) h) k
          = alookup (rest.foldl (fun a kv => aset a kv.1 kv.2) (aset h k0 v0)) k := rfl
        _ = alookup (aset h k0 v0) k := ih (aset h k0 v0) hnone
        _ = alookup h k := alookup_aset_ne h v0 hne

theorem alookup_foldl_aset_of_some {β : Type} (m : List (String × β)) :
    ∀ h : List (String × β), ∀ {k : String} {v : β},
      (m.map (·.1)).Nodup → alookup m k = some v →
      alookup (m.foldl (fun a kv => aset a kv.1 kv.2) h) k = some v := by
  induction m with
  | nil => intro h k v _ hsome; simp [alookup] at hsome
  | cons kv rest ih =>
    intro h k v hnd hsome
    obtain ⟨k0, v0⟩ := kv
    have hnd' := List.nodup_cons.mp hnd
    by_cases hk : k0 = k
    · subst hk
      simp [alookup] at hsome
      subst hsome
      have hnone : alookup rest k0 = none := by
        rw [alookup_eq_none_iff]
        exact hnd'.1
      calc alookup (((k0, v0) :: rest).foldl (fun a kv => aset a kv.1 kv.2) h) k0
          = alookup (rest.foldl (fun a kv => aset a kv.1 kv.2) (aset h k0 v0)) k0 := rfl
        _ = alookup (aset h k0 v0) k0 := alookup_foldl_aset_of_none rest (aset h k0 v0) hnone
        _ = some v0 := alookup_aset_self h k0 v0
    · simp only [alookup, hk, if_false] at hsome
      exact ih (aset h k0 v0) hnd'.2 hsome

/-!  Set-element lemmas. -/

theorem mem_addElem {m : List String} {x y : String} :
    y ∈ addElem m x ↔ y ∈ m ∨ y = x := by
  by_cases hx : x ∈ m
  · constructor
    · intro h; exact Or.inl (by simpa [addElem, hx] using h)
    · intro h
      rcases h with h | h
      · simpa [addElem, hx]
      · subst h; simp [addElem, hx]
  · simp [addElem, hx]

theorem mem_removeElem {m : List String} {x y : String} :
    y ∈ removeElem m x ↔ y ∈ m ∧ y ≠ x := by
  simp [removeElem]

theorem not_mem_removeElem_self (m : List String) (x : String) :
    x ∉ removeElem m x := by
  simp [mem_removeElem]

/-!  Keyspace framing lemmas. -/

theorem findK_writeK_self (s : Store) (k : String) (v : RVal) :
    findK (writeK s k v) k = some v := by
  induction s with
  | nil => simp [writeK, findK]
  | cons kv rest ih =>
    obtain ⟨k0, v0⟩ := kv
    by_cases hk : k0 = k
    · simp [writeK, hk, findK]
    · simp [writeK, hk, findK, ih]

theorem findK_writeK_ne (s : Store) {k k' : String} (v : RVal) (hne : k' ≠ k) :
    findK (writeK s k v) k' = findK s k' := by
  have hne' : ¬(k = k') := fun hh => hne hh.symm
  induction s with
  | nil => simp [writeK, findK, hne']
  | cons kv rest ih =>
    obtain ⟨k0, v0⟩ := kv
    by_cases hk : k0 = k
    · subst hk
      simp [writeK, findK, hne']
    · simp [writeK, hk, findK, ih]

theorem eraseKey_cons_self (k0 : String) (v0 : RVal) (rest : Store) :
    eraseKey ((k0, v0) :: rest) k0 = eraseKey rest k0 := by
  simp [eraseKey]

theorem eraseKey_cons_ne {k0 k : String} (v0 : RVal) (rest : Store)
    (hk : ¬(k0 = k)) :
    eraseKey ((k0, v0) :: rest) k = (k0, v0) :: eraseKey rest k := by
  simp [eraseKey, hk]

theorem findK_erase_self (s : Store) (k : String) :
    findK (eraseKey s k) k = none := by
  induction s with
  | nil => simp [eraseKey, findK]
  | cons kv rest ih =>
    obtain ⟨k0, v0⟩ := kv
    by_cases hk : k0 = k
    · subst hk
      rw [eraseKey_cons_self]
      exact ih
    · rw [eraseKey_cons_ne v0 rest hk]
      simp [findK, hk, ih]

theorem findK_erase_ne (s : Store) {k k' : String} (hne : k' ≠ k) :
    findK (eraseKey s k) k' = findK s k' := by
  induction s with
  | nil => simp [eraseKey, findK]
  | cons kv rest ih =>
    obtain ⟨k0, v0⟩ := kv
    by_cases hk : k0 = k
    · subst hk
      have h1 : ¬(k0 = k') := fun hh => hne hh.symm
      rw [eraseKey_cons_self, ih]
      simp [findK, h1]
    · rw [eraseKey_cons_ne v0 rest hk]
      by_cases hk0 : k0 = k'
      · simp [findK, hk0]
      · simp [findK, hk0, ih]

theorem writeK_cons_self (k0 : String) (v0 v : RVal) (rest : Store) :
    writeK ((k0, v0) :: rest) k0 v = (k0, v) :: rest := by
  simp [writeK]

theorem writeK_cons_ne {k0 k : String} (v0 v : RVal) (rest : Store)
    (hk : ¬(k0 = k)) :
    writeK ((k0, v0) :: rest) k v = (k0, v0) :: writeK rest k v := by
  simp [writeK, hk]

theorem mem_storeKeys_writeK {s : Store} {k k' : String} {v : RVal}
    (hmem : k' ∈ storeKeys (writeK s k v)) : k' = k ∨ k' ∈ storeKeys s := by
  induction s with
  | nil =>
    simp [writeK, storeKeys] at hmem
    exact Or.inl hmem
  | cons kv rest ih =>
    obtain ⟨k0, v0⟩ := kv
    by_cases hk : k0 = k
    · subst hk
      rw [writeK_cons_self] at hmem
      simp only [storeKeys, List.map_cons, List.mem_cons] at hmem
      rcases hmem with h | h
      · exact Or.inl h
      · exact Or.inr (List.mem_cons_of_mem _ h)
    · rw [writeK_cons_ne v0 v rest hk] at hmem
      simp only [storeKeys, List.map_cons, List.mem_cons] at hmem
      rcases hmem with h | h
      · exact Or.inr (by simp [storeKeys, h])
      · rcases ih h with h' | h'
        · exact Or.inl h'
        · exact Or.inr (List.mem_cons_of_mem _ h')

theorem mem_storeKeys_erase {s : Store} {k k' : String}
    (hmem : k' ∈ storeKeys (eraseKey s k)) : k' ∈ storeKeys s := by
  simp only [storeKeys, eraseKey] at hmem ⊢
  rcases List.mem_map.mp hmem with ⟨p, hp, hpk⟩
  exact List.mem_map.mpr ⟨p, List.mem_of_mem_filter hp, hpk⟩

/-!  Accessor framing: each primitive touches only its own key. -/

theorem hashAt_writeK_ne (s : Store) {k k' : String} (v : RVal) (hne : k' ≠ k) :
    hashAt (writeK s k v) k' = hashAt s k' := by
  simp [hashAt, findK_writeK_ne s v hne]

theorem strAt_writeK_ne (s : Store) {k k' : String} (v : RVal) (hne : k' ≠ k) :
    strAt (writeK s k v) k' = strAt s k' := by
  simp [strAt, findK_writeK_ne s v hne]

theorem setAt_writeK_ne (s : Store) {k k' : String} (v : RVal) (hne : k' ≠ k) :
    setAt (writeK s k v) k' = setAt s k' := by
  simp [setAt, findK_writeK_ne s v hne]

theorem hashAt_erase_ne (s : Store) {k k' : String} (hne : k' ≠ k) :
    hashAt (eraseKey s k) k' = hashAt s k' := by
  simp [hashAt, findK_erase_ne s hne]

theorem strAt_erase_ne (s : Store) {k k' : String} (hne : k' ≠ k) :
    strAt (eraseKey s k) k' = strAt s k' := by
  simp [strAt, findK_erase_ne s hne]

theorem setAt_erase_ne (s : Store) {k k' : String} (hne : k' ≠ k) :
    setAt (eraseKey s k) k' = setAt s k' := by
  simp [setAt, findK_erase_ne s hne]

theorem hset_isEmpty (s : Store) (k : String) {m : AList} (hm : m.isEmpty = true) :
    hset s k m = s := by
  simp only [hset]
  rw [if_pos hm]

theorem hset_eq_write {s : Store} {k : String} {m : AList}
    (hm : ¬m.isEmpty = true) :
    hset s k m =
      writeK s k (.hstr (m.foldl (fun h kv => aset h kv.1 kv.2) (hashAt s k))) := by
  simp only [hset]
  rw [if_neg hm]

theorem hashAt_hset_self (s : Store) (k : String) {m : AList}
    (hm : ¬m.isEmpty = true) :
    hashAt (hset s k m) k = m.foldl (fun h kv => aset h kv.1 kv.2) (hashAt s k) := by
  rw [hset_eq_write hm]
  simp [hashAt, findK_writeK_self]

theorem hashAt_hset_ne (s : Store) {k k' : String} (m : AList) (hne : k' ≠ k) :
    hashAt (hset s k m) k' = hashAt s k' := by
  by_cases hm : m.isEmpty = true
  · rw [hset_isEmpty s k hm]
  · rw [hset_eq_write hm, hashAt_writeK_ne s _ hne]

theorem strAt_hset_ne (s : Store) {k k' : String} (m : AList) (hne : k' ≠ k) :
    strAt (hset s k m) k' = strAt s k' := by
  by_cases hm : m.isEmpty = true
  · rw [hset_isEmpty s k hm]
  · rw [hset_eq_write hm, strAt_writeK_ne s _ hne]

theorem setAt_hset_ne (s : Store) {k k' : String} (m : AList) (hne : k' ≠ k) :
    setAt (hset s k m) k' = setAt s k' := by
  by_cases hm : m.isEmpty = true
  · rw [hset_isEmpty s k hm]
  · rw [hset_eq_write hm, setAt_writeK_ne s _ hne]

theorem hdel_eq_erase {s : Store} {k f : String}
    (he : (adel (hashAt s k) f).isEmpty = true) :
    hdel s k f = eraseKey s k := by
  simp only [hdel]
  rw [if_pos he]

theorem hdel_eq_write {s : Store} {k f : String}
    (he : ¬(adel (hashAt s k) f).isEmpty = true) :
    hdel s k f = writeK s k (.hstr (adel (hashAt s k) f)) := by
  simp only [hdel]
  rw [if_neg he]

theorem hashAt_hdel_self (s : Store) (k f : String) :
    hashAt (hdel s k f) k = adel (hashAt s k) f := by
  by_cases he : (adel (hashAt s k) f).isEmpty = true
  · have h0 : adel (hashAt s k) f = [] := by simpa [List.isEmpty_iff] using he
    rw [hdel_eq_erase he, h0]
    simp [hashAt, findK_erase_self]
  · rw [hdel_eq_write he]
    simp [hashAt, findK_writeK_self]

theorem hashAt_hdel_ne (s : Store) {k k' : String} (f : String) (hne : k' ≠ k) :
    hashAt (hdel s k f) k' = hashAt s k' := by
  by_cases he : (adel (hashAt s k) f).isEmpty = true
  · rw [hdel_eq_erase he, hashAt_erase_ne s hne]
  · rw [hdel_eq_write he, hashAt_writeK_ne s _ hne]

theorem strAt_hdel_ne (s : Store) {k k' : String} (f : String) (hne : k' ≠ k) :
    strAt (hdel s k f) k' = strAt s k' := by
  by_cases he : (adel (hashAt s k) f).isEmpty = true
  · rw [hdel_eq_erase he, strAt_erase_ne s hne]
  · rw [hdel_eq_write he, strAt_writeK_ne s _ hne]

theorem setAt_hdel_ne (s : Store) {k k' : String} (f : String) (hne : k' ≠ k) :
    setAt (hdel s k f) k' = setAt s k' := by
  by_cases he : (adel (hashAt s k) f).isEmpty = true
  · rw [hdel_eq_erase he, setAt_erase_ne s hne]
  · rw [hdel_eq_write he, setAt_writeK_ne s _ hne]

theorem strAt_setStr_self (s : Store) (k v : String) :
    strAt (setStr s k v) k = some v := by
  simp [setStr, strAt, findK_writeK_self]

theorem strAt_setStr_ne (s : Store) {k k' : String} (v : String) (hne : k' ≠ k) :
    strAt (setStr s k v) k' = strAt s k' := by
  simp [setStr, strAt_writeK_ne s _ hne]

theorem hashAt_setStr_ne (s : Store) {k k' : String} (v : String) (hne : k' ≠ k) :
    hashAt (setStr s k v) k' = hashAt s k' := by
  simp [setStr, hashAt_writeK_ne s _ hne]

theorem setAt_setStr_ne (s : Store) {k k' : String} (v : String) (hne : k' ≠ k) :
    setAt (setStr s k v) k' = setAt s k' := by
  simp [setStr, setAt_writeK_ne s _ hne]

theorem setAt_sadd_self (s : Store) (k x : String) :
    setAt (sadd s k x) k = addElem (setAt s k) x := by
  simp [sadd, setAt, findK_writeK_self]

theorem setAt_sadd_ne (s : Store) {k k' : String} (x : String) (hne : k' ≠ k) :
    setAt (sadd s k x) k' = setAt s k' := by
  simp [sadd, setAt_writeK_ne s _ hne]

theorem hashAt_sadd_ne (s : Store) {k k' : String} (x : String) (hne : k' ≠ k) :
    hashAt (sadd s k x) k' = hashAt s k' := by
  simp [sadd, hashAt_writeK_ne s _ hne]

theorem strAt_sadd_ne (s : Store) {k k' : String} (x : String) (hne : k' ≠ k) :
    strAt (sadd s k x) k' = strAt s k' := by
  simp [sadd, strAt_writeK_ne s _ hne]

theorem srem_eq_erase {s : Store} {k x : String}
    (he : (removeElem (setAt s k) x).isEmpty = true) :
    srem s k x = eraseKey s k := by
  simp only [srem]
  rw [if_pos he]

theorem srem_eq_write {s : Store} {k x : String}
    (he : ¬(removeElem (setAt s k) x).isEmpty = true) :
    srem s k x = writeK s k (.vset (removeElem (setAt s k) x)) := by
  simp only [srem]
  rw [if_neg he]

theorem setAt_srem_self (s : Store) (k x : String) :
    setAt (srem s k x) k = removeElem (setAt s k) x := by
  by_cases he : (removeElem (setAt s k) x).isEmpty = true
  · have h0 : removeElem (setAt s k) x = [] := by simpa [List.isEmpty_iff] using he
    rw [srem_eq_erase he, h0]
    simp [setAt, findK_erase_self]
  · rw [srem_eq_write he]
    simp [setAt, findK_writeK_self]

theorem setAt_srem_ne (s : Store) {k k' : String} (x : String) (hne : k' ≠ k) :
    setAt (srem s k x) k' = setAt s k' := by
  by_cases he : (removeElem (setAt s k) x).isEmpty = true
  · rw [srem_eq_erase he, setAt_erase_ne s hne]
  · rw [srem_eq_write he, setAt_writeK_ne s _ hne]

theorem hashAt_srem_ne (s : Store) {k k' : String} (x : String) (hne : k' ≠ k) :
    hashAt (srem s k x) k' = hashAt s k' := by
  by_cases he : (removeElem (setAt s k) x).isEmpty = true
  · rw [srem_eq_erase he, hashAt_erase_ne s hne]
  · rw [srem_eq_write he, hashAt_writeK_ne s _ hne]

theorem strAt_srem_ne (s : Store) {k k' : String} (x : String) (hne : k' ≠ k) :
    strAt (srem s k x) k' = strAt s k' := by
  by_cases he : (removeElem (setAt s k) x).isEmpty = true
  · rw [srem_eq_erase he, strAt_erase_ne s hne]
  · rw [srem_eq_write he, strAt_writeK_ne s _ hne]

/-!  Set-membership behaviour of the primitives, element-wise. -/

theorem mem_setAt_sadd_iff {s : Store} {k K x y : String} :
    y ∈ setAt (sadd s k x) K ↔ (K = k ∧ y = x) ∨ y ∈ setAt s K := by
  by_cases hK : K = k
  · subst hK
    rw [setAt_sadd_self, mem_addElem]
    tauto
  · rw [setAt_sadd_ne s x hK]
    tauto

theorem mem_setAt_srem_imp {s : Store} {k K x y : String}
    (h : y ∈ setAt (srem s k x) K) : y ∈ setAt s K := by
  by_cases hK : K = k
  · subst hK
    rw [setAt_srem_self, mem_removeElem] at h
    exact h.1
  · rwa [setAt_srem_ne s x hK] at h

theorem mem_setAt_srem_iff_of_ne {s : Store} {k K x y : String} (hxy : y ≠ x) :
    y ∈ setAt (srem s k x) K ↔ y ∈ setAt s K := by
  by_cases hK : K = k
  · subst hK
    rw [setAt_srem_self, mem_removeElem]
    simp [hxy]
  · rw [setAt_srem_ne s x hK]

theorem not_mem_setAt_srem_self (s : Store) (k x : String) :
    x ∉ setAt (srem s k x) k := by
  rw [setAt_srem_self]
  exact not_mem_removeElem_self _ x

theorem mem_setAt_hdel_imp {s : Store} {k f K y : String}
    (h : y ∈ setAt (hdel s k f) K) : y ∈ setAt s K := by
  by_cases hK : K = k
  · subst hK
    by_cases he : (adel (hashAt s K) f).isEmpty = true
    · rw [hdel_eq_erase he] at h
      simp [setAt, findK_erase_self] at h
    · rw [hdel_eq_write he] at h
      simp [setAt, findK_writeK_self] at h
  · rwa [setAt_hdel_ne s f hK] at h

theorem mem_setAt_hset_imp {s : Store} {k K y : String} {m : AList}
    (h : y ∈ setAt (hset s k m) K) : y ∈ setAt s K := by
  by_cases hm : m.isEmpty = true
  · rwa [hset_isEmpty s k hm] at h
  · by_cases hK : K = k
    · subst hK
      rw [hset_eq_write hm] at h
      simp [setAt, findK_writeK_self] at h
    · rwa [setAt_hset_ne s m hK] at h

theorem mem_setAt_setStr_imp {s : Store} {k v K y : String}
    (h : y ∈ setAt (setStr s k v) K) : y ∈ setAt s K := by
  by_cases hK : K = k
  · subst hK
    simp [setStr, setAt, findK_writeK_self] at h
  · rwa [setAt_setStr_ne s v hK] at h

theorem mem_setAt_erase_imp {s : Store} {k K y : String}
    (h : y ∈ setAt (eraseKey s k) K) : y ∈ setAt s K := by
  by_cases hK : K = k
  · subst hK
    simp [setAt, findK_erase_self] at h
  · rwa [setAt_erase_ne s hK] at h

/-!  Keyspace scheme lemmas: injectivity per kind and disjointness between
kinds (each kind is tagged by its first character). -/

theorem data_append (a b : String) : (a ++ b).data = a.data ++ b.data := by
  cases a; cases b; rfl

theorem entityKey_data (u : String) : (entityKey u).data = 'e' :: ':' :: u.data := by
  rw [entityKey, data_append]; rfl

theorem watchKey_data (u : String) : (watchKey u).data = 'w' :: ':' :: u.data := by
  rw [watchKey, data_append]; rfl

theorem parentKey_data (u : String) : (parentKey u).data = 'p' :: ':' :: u.data := by
  rw [parentKey, data_append]; rfl

theorem childrenKey_data (u : String) :
    (childrenKey u).data = 'c' :: ':' :: u.data := by
  rw [childrenKey, data_append]; rfl

theorem uniqueSetKey_data (x : String) :
    (uniqueSetKey x).data = 'u' :: ':' :: x.data := by
  rw [uniqueSetKey, data_append]; rfl

theorem indexKey_data (a v : String) :
    (indexKey a v).data = 'i' :: ':' :: (a.data ++ ':' :: v.data) := by
  rw [indexKey, data_append, data_append, data_append]
  simp

theorem indexPattern_data (a v : String) :
    (indexPattern a v).data = 'i' :: ':' :: (a.data ++ ':' :: v.data) := by
  rw [indexPattern, data_append, data_append, data_append]
  simp

theorem entityKey_inj {a b : String} (h : entityKey a = entityKey b) : a = b := by
  have hd := congrArg String.data h
  rw [entityKey_data, entityKey_data] at hd
  exact String.ext (by injection (by injection hd with _ hd2) with _ hd3)

theorem childrenKey_inj {a b : String} (h : childrenKey a = childrenKey b) :
    a = b := by
  have hd := congrArg String.data h
  rw [childrenKey_data, childrenKey_data] at hd
  exact String.ext (by injection (by injection hd with _ hd2) with _ hd3)

theorem ne_of_data_head_ne {a b : String} {ca cb : Char}
    (ha : a.data = ca :: (a.data.tail)) (hb : b.data = cb :: (b.data.tail))
    (hc : ca ≠ cb) : a ≠ b := by
  intro h
  subst h
  rw [ha] at hb
  exact hc (by injection hb)

theorem entityKey_ne_indexKey (u a v : String) : entityKey u ≠ indexKey a v := by
  intro h
  have hd := congrArg String.data h
  rw [entityKey_data, indexKey_data] at hd
  have hc := List.head_eq_of_cons_eq hd
  simp at hc

theorem entityKey_ne_watchKey (u w : String) : entityKey u ≠ watchKey w := by
  intro h
  have hd := congrArg String.data h
  rw [entityKey_data, watchKey_data] at hd
  have hc := List.head_eq_of_cons_eq hd
  simp at hc

theorem entityKey_ne_parentKey (u w : String) : entityKey u ≠ parentKey w := by
  intro h
  have hd := congrArg String.data h
  rw [entityKey_data, parentKey_data] at hd
  have hc := List.head_eq_of_cons_eq hd
  simp at hc

theorem entityKey_ne_childrenKey (u w : String) : entityKey u ≠ childrenKey w := by
  intro h
  have hd := congrArg String.data h
  rw [entityKey_data, childrenKey_data] at hd
  have hc := List.head_eq_of_cons_eq hd
  simp at hc

theorem indexKey_ne_watchKey (a v w : String) : indexKey a v ≠ watchKey w := by
  intro h
  have hd := congrArg String.data h
  rw [indexKey_data, watchKey_data] at hd
  have hc := List.head_eq_of_cons_eq hd
  simp at hc

theorem indexKey_ne_parentKey (a v w : String) : indexKey a v ≠ parentKey w := by
  intro h
  have hd := congrArg String.data h
  rw [indexKey_data, parentKey_data] at hd
  have hc := List.head_eq_of_cons_eq hd
  simp at hc

theorem indexKey_ne_childrenKey (a v w : String) : indexKey a v ≠ childrenKey w := by
  intro h
  have hd := congrArg String.data h
  rw [indexKey_data, childrenKey_data] at hd
  have hc := List.head_eq_of_cons_eq hd
  simp at hc

theorem colonFree_iff (x : String) : colonFree x = true ↔ ':' ∉ x.data := by
  constructor
  · intro h hmem
    have := List.all_eq_true.mp h ':' hmem
    simp at this
  · intro h
    exact List.all_eq_true.mpr (fun c hc => by
      simp
      intro hcc
      exact h (hcc ▸ hc))

theorem colon_split :
    ∀ (a a' v v' : List Char), ':' ∉ a → ':' ∉ a' →
      a ++ ':' :: v = a' ++ ':' :: v' → a = a' ∧ v = v' := by
  intro a
  induction a with
  | nil =>
    intro a' v v' _ ha' heq
    cases a' with
    | nil =>
      constructor
      · rfl
      · simpa using heq
    | cons c rest =>
      exfalso
      have hc : ':' = c := by simpa using congrArg List.head? heq
      exact ha' (by simp [hc.symm])
  | cons c rest ih =>
    intro a' v v' ha ha' heq
    cases a' with
    | nil =>
      exfalso
      have hc : c = ':' := by simpa using congrArg List.head? heq
      exact ha (by simp [hc])
    | cons c' rest' =>
      have hc : c = c' := by simpa using congrArg List.head? heq
      subst hc
      have htail : rest ++ ':' :: v = rest' ++ ':' :: v' := by
        simpa using congrArg List.tail heq
      have h1 : ':' ∉ rest := fun hh => ha (List.mem_cons_of_mem _ hh)
      have h2 : ':' ∉ rest' := fun hh => ha' (List.mem_cons_of_mem _ hh)
      obtain ⟨hr, hv⟩ := ih rest' v v' h1 h2 htail
      exact ⟨by rw [hr], hv⟩

theorem indexKey_inj {a v a' v' : String} (ha : colonFree a = true)
    (ha' : colonFree a' = true) (h : indexKey a v = indexKey a' v') :
    a = a' ∧ v = v' := by
  have hd := congrArg String.data h
  rw [indexKey_data, indexKey_data] at hd
  have hd1 : a.data ++ ':' :: v.data = a'.data ++ ':' :: v'.data := by
    injection (by injection hd with _ h2) with _ h3
  obtain ⟨hae, hve⟩ :=
    colon_split a.data a'.data v.data v'.data
      ((colonFree_iff a).mp ha) ((colonFree_iff a').mp ha') hd1
  exact ⟨String.ext hae, String.ext hve⟩

theorem indexKey_ne_of_name_ne {a a' : String} (v v' : String)
    (ha : colonFree a = true) (ha' : colonFree a' = true) (hne : a ≠ a') :
    indexKey a v ≠ indexKey a' v' := by
  intro h
  exact hne (indexKey_inj ha ha' h).1

theorem indexKey_ne_of_value_ne {a : String} {v v' : String}
    (ha : colonFree a = true) (hne : v ≠ v') :
    indexKey a v ≠ indexKey a v' := by
  intro h
  exact hne (indexKey_inj ha ha h).2

/-!  Behaviour of the `_remove_entity_attributes` fold. -/

theorem removeAttrs_nil (s : Store) (u : String) (old : AList) :
    removeAttrs s u old [] = s := rfl

theorem removeAttrs_cons (s : Store) (u : String) (old : AList) (k : String)
    (keys : List String) :
    removeAttrs s u old (k :: keys) =
      removeAttrs
        (match alookup old k with
         | some ov => srem (hdel s (entityKey u) k) (indexKey k ov) u
         | none => s) u old keys := rfl

theorem removeAttrs_append (s : Store) (u : String) (old : AList)
    (l1 l2 : List String) :
    removeAttrs s u old (l1 ++ l2) = removeAttrs (removeAttrs s u old l1) u old l2 := by
  simp [removeAttrs, List.foldl_append]

theorem removeAttrs_old_nil (s : Store) (u : String) (keys : List String) :
    removeAttrs s u [] keys = s := by
  induction keys with
  | nil => rfl
  | cons k rest ih => simpa [removeAttrs_cons, alookup] using ih

theorem hashAt_removeAttrs_self (u : String) (old : AList) (keys : List String) :
    ∀ s : Store,
      hashAt (removeAttrs s u old keys) (entityKey u) =
        keys.foldl
          (fun h k => match alookup old k with | some _ => adel h k | none => h)
          (hashAt s (entityKey u)) := by
  induction keys with
  | nil => intro s; rfl
  | cons k rest ih =>
    intro s
    rw [removeAttrs_cons]
    cases hlk : alookup old k with
    | none => simp [hlk, ih]
    | some ov =>
      simp only [hlk]
      rw [ih]
      have h1 : hashAt (srem (hdel s (entityKey u) k) (indexKey k ov) u) (entityKey u)
          = adel (hashAt s (entityKey u)) k := by
        rw [hashAt_srem_ne _ _ (entityKey_ne_indexKey u k ov),
          hashAt_hdel_self]
      rw [h1]
      simp [hlk]

theorem hashAt_removeAttrs_ne {u w : String} (hw : w ≠ u) (old : AList)
    (keys : List String) :
    ∀ s : Store,
      hashAt (removeAttrs s u old keys) (entityKey w) = hashAt s (entityKey w) := by
  have hne : entityKey w ≠ entityKey u := fun hh => hw (entityKey_inj hh)
  induction keys with
  | nil => intro s; rfl
  | cons k rest ih =>
    intro s
    rw [removeAttrs_cons]
    cases hlk : alookup old k with
    | none => simp [ih]
    | some ov =>
      simp only
      rw [ih]
      rw [hashAt_srem_ne _ _ (entityKey_ne_indexKey w k ov),
        hashAt_hdel_ne _ _ hne]

theorem strAt_removeAttrs (u : String) (old : AList) (keys : List String)
    {K : String} (hK : ∀ w, K ≠ entityKey w) (hK2 : ∀ a v, K ≠ indexKey a v) :
    ∀ s : Store, strAt (removeAttrs s u old keys) K = strAt s K := by
  induction keys with
  | nil => intro s; rfl
  | cons k rest ih =>
    intro s
    rw [removeAttrs_cons]
    cases hlk : alookup old k with
    | none => simp [ih]
    | some ov =>
      simp only
      rw [ih]
      rw [strAt_srem_ne _ _ (hK2 k ov), strAt_hdel_ne _ _ (hK u)]

theorem mem_setAt_removeAttrs_imp {u : String} {old : AList} {keys : List String}
    {K y : String} :
    ∀ {s : Store}, y ∈ setAt (removeAttrs s u old keys) K → y ∈ setAt s K := by
  induction keys with
  | nil => intro s h; exact h
  | cons k rest ih =>
    intro s h
    rw [removeAttrs_cons] at h
    cases hlk : alookup old k with
    | none =>
      rw [hlk] at h
      exact ih h
    | some ov =>
      rw [hlk] at h
      exact mem_setAt_hdel_imp (mem_setAt_srem_imp (ih h))

theorem mem_setAt_removeAttrs_iff {u : String} {old : AList} {keys : List String}
    {K y : String} (hy : y ≠ u) (hK : K ≠ entityKey u) :
    ∀ {s : Store}, y ∈ setAt (removeAttrs s u old keys) K ↔ y ∈ setAt s K := by
  induction keys with
  | nil => intro s; rfl
  | cons k rest ih =>
    intro s
    rw [removeAttrs_cons]
    cases hlk : alookup old k with
    | none => simp [ih]
    | some ov =>
      simp only
      rw [ih, mem_setAt_srem_iff_of_ne hy]
      constructor
      · intro h
        by_cases hKk : K = entityKey u
        · exact absurd hKk hK
        · rwa [setAt_hdel_ne _ _ hKk] at h
      · intro h
        by_cases hKk : K = entityKey u
        · exact absurd hKk hK
        · rwa [setAt_hdel_ne _ _ hKk]

theorem not_mem_setAt_removeAttrs {s : Store} {u : String} {old : AList}
    {keys : List String} {k v : String} (hk : k ∈ keys)
    (hlk : alookup old k = some v) :
    u ∉ setAt (removeAttrs s u old keys) (indexKey k v) := by
  obtain ⟨l1, l2, hsplit⟩ := List.append_of_mem hk
  subst hsplit
  rw [removeAttrs_append, removeAttrs_cons, hlk]
  intro hmem
  have h1 := mem_setAt_removeAttrs_imp hmem
  exact not_mem_setAt_srem_self _ _ _ h1

/-!  Delete empties the attribute hash and every index membership. -/

theorem mem_adel_imp {β : Type} {h : List (String × β)} {k : String}
    {kv : String × β} (hmem : kv ∈ adel h k) : kv ∈ h ∧ kv.1 ≠ k := by
  induction h with
  | nil => simp [adel] at hmem
  | cons kv0 rest ih =>
    obtain ⟨k0, v0⟩ := kv0
    by_cases hk : k0 = k
    · rw [show adel ((k0, v0) :: rest) k = adel rest k by simp [adel, hk]] at hmem
      obtain ⟨h1, h2⟩ := ih hmem
      exact ⟨List.mem_cons_of_mem _ h1, h2⟩
    · rw [show adel ((k0, v0) :: rest) k = (k0, v0) :: adel rest k by
        simp [adel, hk]] at hmem
      rcases List.mem_cons.mp hmem with heq | htail
      · subst heq
        exact ⟨List.mem_cons_self _ _, hk⟩
      · obtain ⟨h1, h2⟩ := ih htail
        exact ⟨List.mem_cons_of_mem _ h1, h2⟩

theorem alookup_isSome_of_mem_keys {β : Type} {h : List (String × β)} {k : String}
    (hmem : k ∈ h.map (·.1)) : (alookup h k).isSome = true := by
  cases hl : alookup h k with
  | none => exact absurd hmem ((alookup_eq_none_iff h k).mp hl)
  | some v => rfl

theorem guarded_foldl_eq_adel (old : AList) (keys : List String)
    (hall : ∀ k ∈ keys, (alookup old k).isSome = true) :
    ∀ h : AList,
      keys.foldl
        (fun h k => match alookup old k with | some _ => adel h k | none => h) h =
      keys.foldl adel h := by
  induction keys with
  | nil => intro h; rfl
  | cons k rest ih =>
    intro h
    have hk := hall k (List.mem_cons_self k rest)
    cases hl : alookup old k with
    | none => rw [hl] at hk; simp at hk
    | some ov =>
      simp only [List.foldl_cons, hl]
      exact ih (fun k' hk' => hall k' (List.mem_cons_of_mem _ hk')) (adel h k)

theorem foldl_adel_empty :
    ∀ (keys : List String) (h : AList), (∀ kv ∈ h, kv.1 ∈ keys) →
      keys.foldl adel h = [] := by
  intro keys
  induction keys with
  | nil =>
    intro h hall
    cases h with
    | nil => rfl
    | cons kv rest => exact absurd (hall kv (List.mem_cons_self _ _)) (by simp)
  | cons k rest ih =>
    intro h hall
    simp only [List.foldl_cons]
    refine ih (adel h k) ?_
    intro kv hkv
    obtain ⟨h1, h2⟩ := mem_adel_imp hkv
    rcases List.mem_cons.mp (hall kv h1) with heq | htail
    · exact absurd heq h2
    · exact htail

theorem hashAt_removeAttrs_all_self (s : Store) (u : String) :
    hashAt
      (removeAttrs s u (hashAt s (entityKey u))
        ((hashAt s (entityKey u)).map (·.1))) (entityKey u) = [] := by
  rw [hashAt_removeAttrs_self]
  rw [guarded_foldl_eq_adel _ _ (fun k hk => alookup_isSome_of_mem_keys hk)]
  exact foldl_adel_empty _ _ (fun kv hkv => List.mem_map_of_mem (·.1) hkv)

theorem hashAt_deleteS_self (s : Store) (u : String) :
    hashAt (deleteS s u) (entityKey u) = [] := by
  unfold deleteS
  have h1 : hashAt (setStr s (watchKey u) "") (entityKey u)
      = hashAt s (entityKey u) :=
    hashAt_setStr_ne s _ (entityKey_ne_watchKey u u)
  have h2 : hashAt
      (removeAttrs (setStr s (watchKey u) "") u (hashAt s (entityKey u))
        ((hashAt s (entityKey u)).map (·.1))) (entityKey u) = [] := by
    rw [hashAt_removeAttrs_self]
    rw [guarded_foldl_eq_adel _ _ (fun k hk => alookup_isSome_of_mem_keys hk), h1]
    exact foldl_adel_empty _ _ (fun kv hkv => List.mem_map_of_mem (·.1) hkv)
  have h3 : ∀ st : Store, hashAt st (entityKey u) = [] →
      hashAt (srem (eraseKey (eraseKey (hdel st (entityKey u) "*") (watchKey u))
        (parentKey u)) (childrenKey u) "*") (entityKey u) = [] := by
    intro st hst
    rw [hashAt_srem_ne _ _ (entityKey_ne_childrenKey u u),
      hashAt_erase_ne _ (entityKey_ne_parentKey u u),
      hashAt_erase_ne _ (entityKey_ne_watchKey u u),
      hashAt_hdel_self, hst]
    rfl
  simp only [deleteS]
  split
  · split
    · exact h3 _ h2
    · rw [hashAt_srem_ne _ _ (entityKey_ne_childrenKey u _)]
      exact h3 _ h2
  · exact h3 _ h2

theorem mem_setAt_deleteS_tail_imp {s : Store} {u K y : String}
    (hmem : y ∈ setAt (deleteS s u) K) :
    y ∈ setAt
      (removeAttrs (setStr s (watchKey u) "") u (hashAt s (entityKey u))
        ((hashAt s (entityKey u)).map (·.1))) K := by
  simp only [deleteS] at hmem
  split at hmem
  · split at hmem
    · exact mem_setAt_hdel_imp
        (mem_setAt_erase_imp (mem_setAt_erase_imp (mem_setAt_srem_imp hmem)))
    · exact mem_setAt_hdel_imp
        (mem_setAt_erase_imp
          (mem_setAt_erase_imp (mem_setAt_srem_imp (mem_setAt_srem_imp hmem))))
  · exact mem_setAt_hdel_imp
      (mem_setAt_erase_imp (mem_setAt_erase_imp (mem_setAt_srem_imp hmem)))

theorem not_mem_index_deleteS {s : Store} {u k v : String}
    (hlk : alookup (hashAt s (entityKey u)) k = some v) :
    u ∉ setAt (deleteS s u) (indexKey k v) := by
  intro hmem
  have h1 := mem_setAt_deleteS_tail_imp hmem
  have hkmem : k ∈ (hashAt s (entityKey u)).map (·.1) :=
    List.mem_map_of_mem (·.1) (alookup_mem hlk)
  exact not_mem_setAt_removeAttrs hkmem hlk h1

/-!  The guarded attribute-deletion fold seen by the entity hash. -/

theorem guardedFold_none_preserved (old : AList) (keys : List String)
    {k : String} :
    ∀ h : AList, alookup h k = none →
      alookup
        (keys.foldl
          (fun h k => match alookup old k with | some _ => adel h k | none => h) h)
        k = none := by
  induction keys with
  | nil => intro h hnone; exact hnone
  | cons k0 rest ih =>
    intro h hnone
    simp only [List.foldl_cons]
    cases hl : alookup old k0 with
    | none => simpa [hl] using ih h hnone
    | some ov =>
      simp only [hl]
      refine ih (adel h k0) ?_
      by_cases hk : k = k0
      · subst hk
        exact alookup_adel_self h k
      · rw [alookup_adel_ne h hk]
        exact hnone

theorem guardedFold_of_mem (old : AList) {keys : List String} {k : String}
    (hk : k ∈ keys) (hsome : (alookup old k).isSome = true) :
    ∀ h : AList,
      alookup
        (keys.foldl
          (fun h k => match alookup old k with | some _ => adel h k | none => h) h)
        k = none := by
  intro h
  obtain ⟨l1, l2, hsplit⟩ := List.append_of_mem hk
  subst hsplit
  rw [List.foldl_append, List.foldl_cons]
  cases hl : alookup old k with
  | none => rw [hl] at hsome; simp at hsome
  | some ov =>
    simp only [hl]
    exact guardedFold_none_preserved old l2 _ (alookup_adel_self _ k)

theorem guardedFold_of_not_mem (old : AList) {keys : List String} {k : String}
    (hk : k ∉ keys) :
    ∀ h : AList,
      alookup
        (keys.foldl
          (fun h k => match alookup old k with | some _ => adel h k | none => h) h)
        k = alookup h k := by
  induction keys with
  | nil => intro h; rfl
  | cons k0 rest ih =>
    intro h
    have hk0 : k ≠ k0 := fun hh => hk (hh ▸ List.mem_cons_self k0 rest)
    have hrest : k ∉ rest := fun hh => hk (List.mem_cons_of_mem _ hh)
    simp only [List.foldl_cons]
    cases hl : alookup old k0 with
    | none => simpa [hl] using ih hrest h
    | some ov =>
      simp only [hl]
      rw [ih hrest (adel h k0), alookup_adel_ne h hk0]

theorem guardedFold_of_old_none (old : AList) (keys : List String) {k : String}
    (hnone : alookup old k = none) :
    ∀ h : AList,
      alookup
        (keys.foldl
          (fun h k => match alookup old k with | some _ => adel h k | none => h) h)
        k = alookup h k := by
  induction keys with
  | nil => intro h; rfl
  | cons k0 rest ih =>
    intro h
    simp only [List.foldl_cons]
    cases hl : alookup old k0 with
    | none => simpa [hl] using ih h
    | some ov =>
      simp only [hl]
      have hk0 : k ≠ k0 := by
        intro hh
        subst hh
        rw [hnone] at hl
        cases hl
      rw [ih (adel h k0), alookup_adel_ne h hk0]

/-!  Frame lemmas for `_remove_entity_attributes` at index keys it does not
touch, and for the `_update_entity_indexes` fold. -/

theorem setAt_removeAttrs_frame (u : String) (old : AList) (keys : List String)
    {K : String} (hKe : K ≠ entityKey u)
    (hKi : ∀ k0 ∈ keys, ∀ ov, alookup old k0 = some ov → K ≠ indexKey k0 ov) :
    ∀ s : Store, setAt (removeAttrs s u old keys) K = setAt s K := by
  induction keys with
  | nil => intro s; rfl
  | cons k0 rest ih =>
    intro s
    rw [removeAttrs_cons]
    have ih' := ih (fun k1 hk1 ov hov => hKi k1 (List.mem_cons_of_mem _ hk1) ov hov)
    cases hl : alookup old k0 with
    | none => simp [ih']
    | some ov =>
      simp only
      rw [ih', setAt_srem_ne _ _ (hKi k0 (List.mem_cons_self _ _) ov hl),
        setAt_hdel_ne _ _ hKe]

theorem hashAt_updFold (u : String) (old : AList) (l : AList) (w : String) :
    ∀ st : Store,
      hashAt
        (l.foldl
          (fun st kv =>
            sadd
              (match alookup old kv.1 with
               | some ov => srem st (indexKey kv.1 ov) u
               | none => st)
              (indexKey kv.1 kv.2) u)
          st) (entityKey w) = hashAt st (entityKey w) := by
  induction l with
  | nil => intro st; rfl
  | cons kv rest ih =>
    intro st
    simp only [List.foldl_cons]
    rw [ih]
    cases hl : alookup old kv.1 with
    | none =>
      simp only [hl]
      rw [hashAt_sadd_ne _ _ (entityKey_ne_indexKey w kv.1 kv.2)]
    | some ov =>
      simp only [hl]
      rw [hashAt_sadd_ne _ _ (entityKey_ne_indexKey w kv.1 kv.2),
        hashAt_srem_ne _ _ (entityKey_ne_indexKey w kv.1 ov)]

theorem strAt_updFold (u : String) (old : AList) (l : AList) {K : String}
    (hK : ∀ a v, K ≠ indexKey a v) :
    ∀ st : Store,
      strAt
        (l.foldl
          (fun st kv =>
            sadd
              (match alookup old kv.1 with
               | some ov => srem st (indexKey kv.1 ov) u
               | none => st)
              (indexKey kv.1 kv.2) u)
          st) K = strAt st K := by
  induction l with
  | nil => intro st; rfl
  | cons kv rest ih =>
    intro st
    simp only [List.foldl_cons]
    rw [ih]
    cases hl : alookup old kv.1 with
    | none =>
      simp only [hl]
      rw [strAt_sadd_ne _ _ (hK kv.1 kv.2)]
    | some ov =>
      simp only [hl]
      rw [strAt_sadd_ne _ _ (hK kv.1 kv.2), strAt_srem_ne _ _ (hK kv.1 ov)]

theorem setAt_updFold_frame (u : String) (old : AList) (l : AList) {K : String}
    (hK : ∀ kv ∈ l, ∀ w, K ≠ indexKey kv.1 w) :
    ∀ st : Store,
      setAt
        (l.foldl
          (fun st kv =>
            sadd
              (match alookup old kv.1 with
               | some ov => srem st (indexKey kv.1 ov) u
               | none => st)
              (indexKey kv.1 kv.2) u)
          st) K = setAt st K := by
  induction l with
  | nil => intro st; rfl
  | cons kv rest ih =>
    intro st
    simp only [List.foldl_cons]
    rw [ih (fun kv1 hk1 w => hK kv1 (List.mem_cons_of_mem _ hk1) w)]
    cases hl : alookup old kv.1 with
    | none =>
      simp only [hl]
      rw [setAt_sadd_ne _ _ (hK kv (List.mem_cons_self _ _) kv.2)]
    | some ov =>
      simp only [hl]
      rw [setAt_sadd_ne _ _ (hK kv (List.mem_cons_self _ _) kv.2),
        setAt_srem_ne _ _ (hK kv (List.mem_cons_self _ _) ov)]

theorem mem_setAt_updFold_of_ne (u : String) (old : AList) (l : AList)
    {K y : String} (hy : y ≠ u) :
    ∀ st : Store,
      (y ∈ setAt
        (l.foldl
          (fun st kv =>
            sadd
              (match alookup old kv.1 with
               | some ov => srem st (indexKey kv.1 ov) u
               | none => st)
              (indexKey kv.1 kv.2) u)
          st) K) ↔ y ∈ setAt st K := by
  induction l with
  | nil => intro st; rfl
  | cons kv rest ih =>
    intro st
    simp only [List.foldl_cons]
    rw [ih]
    cases hl : alookup old kv.1 with
    | none =>
      simp only [hl]
      rw [mem_setAt_sadd_iff]
      simp [hy]
    | some ov =>
      simp only [hl]
      rw [mem_setAt_sadd_iff]
      simp [hy, mem_setAt_srem_iff_of_ne hy]

theorem updateIndexes_isEmpty (s : Store) (u : String) (old : AList)
    {updates : AList} (h : updates.isEmpty = true) :
    updateIndexes s u old updates = s := by
  unfold updateIndexes
  rw [if_pos h]

theorem updateIndexes_eq (s : Store) (u : String) (old : AList)
    {updates : AList} (h : ¬updates.isEmpty = true) :
    updateIndexes s u old updates =
      updates.foldl
        (fun st kv =>
          sadd
            (match alookup old kv.1 with
             | some ov => srem st (indexKey kv.1 ov) u
             | none => st)
            (indexKey kv.1 kv.2) u)
        (hset s (entityKey u) updates) := by
  unfold updateIndexes
  rw [if_neg h]

/-!  Characterizations of the removal and update partitions of a change. -/

theorem mem_updatesOf {change : PyDict} {k w : String} :
    (k, w) ∈ updatesOf change ↔ (k, some w) ∈ change ∧ k ≠ "uuid" := by
  unfold updatesOf
  rw [List.mem_filterMap]
  constructor
  · rintro ⟨⟨k0, x⟩, hmem, hf⟩
    by_cases hu : k0 = "uuid"
    · simp [hu] at hf
    · simp only [hu, if_false] at hf
      cases x with
      | none => simp at hf
      | some w0 =>
        simp at hf
        obtain ⟨hk, hw⟩ := hf
        subst hk
        subst hw
        exact ⟨hmem, hu⟩
  · rintro ⟨hmem, hu⟩
    exact ⟨(k, some w), hmem, by simp [hu]⟩

theorem mem_removalsOf {change : PyDict} {k : String} :
    k ∈ removalsOf change ↔ (k, (none : Option String)) ∈ change ∧ k ≠ "uuid" := by
  unfold removalsOf
  rw [List.mem_map]
  constructor
  · rintro ⟨⟨k0, x⟩, hmem, hk⟩
    obtain ⟨hmem0, hcond⟩ := List.mem_filter.mp hmem
    simp at hcond hk
    subst hk
    obtain ⟨h1, h2⟩ := hcond
    cases x with
    | none => exact ⟨hmem0, h2⟩
    | some w => simp at h1
  · rintro ⟨hmem, hu⟩
    exact ⟨(k, none), List.mem_filter.mpr ⟨hmem, by simp [hu]⟩, rfl⟩

theorem updatesOf_keys_sublist (change : PyDict) :
    ((updatesOf change).map (·.1)).Sublist (change.map (·.1)) := by
  induction change with
  | nil => simp [updatesOf]
  | cons kv rest ih =>
    obtain ⟨k0, x⟩ := kv
    by_cases hu : k0 = "uuid"
    · rw [show updatesOf ((k0, x) :: rest) = updatesOf rest by
        simp [updatesOf, hu]]
      exact ih.cons k0
    · cases x with
      | none =>
        rw [show updatesOf ((k0, none) :: rest) = updatesOf rest by
          simp [updatesOf, hu]]
        exact ih.cons k0
      | some w =>
        rw [show updatesOf ((k0, some w) :: rest) = (k0, w) :: updatesOf rest by
          simp [updatesOf, hu]]
        simpa using ih.cons₂ k0

theorem updatesOf_keys_nodup {change : PyDict}
    (hnd : (change.map (·.1)).Nodup) : ((updatesOf change).map (·.1)).Nodup :=
  (updatesOf_keys_sublist change).nodup hnd

theorem alookup_updatesOf_some {change : PyDict} {k w : String}
    (hnd : (change.map (·.1)).Nodup) :
    alookup (updatesOf change) k = some w ↔
      (k, some w) ∈ change ∧ k ≠ "uuid" := by
  constructor
  · intro h
    exact mem_updatesOf.mp (alookup_mem h)
  · intro h
    exact mem_alookup (mem_updatesOf.mpr h) (updatesOf_keys_nodup hnd)

theorem mem_updatesOf_keys {change : PyDict} {k : String} :
    k ∈ (updatesOf change).map (·.1) ↔
      ∃ w, (k, some w) ∈ change ∧ k ≠ "uuid" := by
  rw [List.mem_map]
  constructor
  · rintro ⟨⟨k0, w⟩, hmem, hk⟩
    simp at hk
    subst hk
    obtain ⟨h1, h2⟩ := mem_updatesOf.mp hmem
    exact ⟨w, h1, h2⟩
  · rintro ⟨w, hmem, hu⟩
    exact ⟨(k, w), mem_updatesOf.mpr ⟨hmem, hu⟩, rfl⟩

/-!  Index-invariant preservation: create on a fresh identifier. -/

theorem hashAt_createFold (u : String) (l : AList) (w : String) :
    ∀ st : Store,
      hashAt
        (l.foldl (fun st kv => sadd st (indexKey kv.1 kv.2) u) st)
        (entityKey w) = hashAt st (entityKey w) := by
  induction l with
  | nil => intro st; rfl
  | cons kv rest ih =>
    intro st
    simp only [List.foldl_cons]
    rw [ih, hashAt_sadd_ne _ _ (entityKey_ne_indexKey w kv.1 kv.2)]

theorem mem_setAt_createFold (u : String) (l : AList) {K y : String} :
    ∀ st : Store,
      (y ∈ setAt (l.foldl (fun st kv => sadd st (indexKey kv.1 kv.2) u) st) K) ↔
        y ∈ setAt st K ∨ (y = u ∧ ∃ kv ∈ l, K = indexKey kv.1 kv.2) := by
  induction l with
  | nil => intro st; simp
  | cons kv rest ih =>
    intro st
    simp only [List.foldl_cons]
    rw [ih, mem_setAt_sadd_iff]
    constructor
    · rintro ((⟨hK, hy⟩ | h) | ⟨hy, kv1, hk1, hK⟩)
      · exact Or.inr ⟨hy, kv, List.mem_cons_self _ _, hK⟩
      · exact Or.inl h
      · exact Or.inr ⟨hy, kv1, List.mem_cons_of_mem _ hk1, hK⟩
    · rintro (h | ⟨hy, kv1, hk1, hK⟩)
      · exact Or.inl (Or.inr h)
      · rcases List.mem_cons.mp hk1 with heq | htail
        · subst heq
          exact Or.inl (Or.inl ⟨hK, hy⟩)
        · exact Or.inr ⟨hy, kv1, htail, hK⟩

theorem createS_preserves_inv {s : Store} {p u : String} {attrs : AList}
    (hinv : IndexInv s) (hga : goodAttrs attrs)
    (hfresh : hashAt s (entityKey u) = []) :
    IndexInv (createS s p u attrs) := by
  intro u' k v hkcf
  obtain ⟨hnd, hcf⟩ := hga
  -- the attribute hash side
  have hhash : hashAt (createS s p u attrs) (entityKey u') =
      hashAt (hset s (entityKey u) attrs) (entityKey u') := by
    unfold createS
    rw [hashAt_sadd_ne _ _ (entityKey_ne_childrenKey u' p),
      hashAt_setStr_ne _ _ (entityKey_ne_parentKey u' u),
      hashAt_createFold]
  -- the index-set side
  have hsets : (u' ∈ setAt (createS s p u attrs) (indexKey k v)) ↔
      u' ∈ setAt s (indexKey k v) ∨
        (u' = u ∧ ∃ kv ∈ attrs, indexKey k v = indexKey kv.1 kv.2) := by
    unfold createS
    rw [mem_setAt_sadd_iff]
    have h1 : ¬(indexKey k v = childrenKey p ∧ u' = u) := by
      rintro ⟨hh, _⟩
      exact indexKey_ne_childrenKey k v p hh
    rw [setAt_setStr_ne _ _ (indexKey_ne_parentKey k v u),
      mem_setAt_createFold,
      setAt_hset_ne _ _ (fun hh => entityKey_ne_indexKey u k v hh.symm)]
    tauto
  rw [hhash, hsets]
  by_cases hu : u' = u
  · subst hu
    have hbase : u' ∉ setAt s (indexKey k v) := by
      intro hmem
      have hsome := (hinv u' k v hkcf).mpr hmem
      rw [hfresh] at hsome
      exact absurd hsome (by simp [alookup])
    have hexists : (∃ kv ∈ attrs, indexKey k v = indexKey kv.1 kv.2) ↔
        alookup attrs k = some v := by
      constructor
      · rintro ⟨⟨k1, v1⟩, hmem, hK⟩
        obtain ⟨hk1, hv1⟩ := indexKey_inj hkcf (hcf _ hmem) hK
        subst hk1
        subst hv1
        exact mem_alookup hmem hnd
      · intro hl
        exact ⟨(k, v), alookup_mem hl, rfl⟩
    by_cases hae : attrs.isEmpty = true
    · have ha0 : attrs = [] := by simpa [List.isEmpty_iff] using hae
      subst ha0
      rw [hset_isEmpty s _ hae, hfresh]
      simp only [alookup]
      constructor
      · intro h
        cases h
      · rintro (hmem | ⟨_, ⟨kv, hkv, _⟩⟩)
        · exact absurd hmem hbase
        · simp at hkv
    · rw [hashAt_hset_self s _ hae, hfresh]
      cases hl : alookup attrs k with
      | some w =>
        rw [alookup_foldl_aset_of_some attrs [] hnd hl]
        constructor
        · intro hwv
          have hw : w = v := by injection hwv
          subst hw
          exact Or.inr ⟨rfl, hexists.mpr hl⟩
        · rintro (hmem | ⟨_, hex⟩)
          · exact absurd hmem hbase
          · rw [← hl]
            exact hexists.mp hex
      | none =>
        rw [alookup_foldl_aset_of_none attrs [] hl]
        simp only [alookup]
        constructor
        · intro h
          cases h
        · rintro (hmem | ⟨_, hex⟩)
          · exact absurd hmem hbase
          · have := hexists.mp hex
            rw [hl] at this
            cases this
  · have hne : entityKey u' ≠ entityKey u := fun hh => hu (entityKey_inj hh)
    rw [hashAt_hset_ne s attrs hne]
    have h2 : ¬(u' = u ∧ ∃ kv ∈ attrs, indexKey k v = indexKey kv.1 kv.2) := by
      rintro ⟨hh, _⟩
      exact hu hh
    have h3 := hinv u' k v hkcf
    tauto

/-!  Index-invariant preservation: delete. -/

theorem hashAt_deleteS_ne {s : Store} {u u' : String} (hu : u' ≠ u) :
    hashAt (deleteS s u) (entityKey u') = hashAt s (entityKey u') := by
  have hne : entityKey u' ≠ entityKey u := fun hh => hu (entityKey_inj hh)
  have h3 : ∀ st : Store,
      hashAt (srem (eraseKey (eraseKey (hdel st (entityKey u) "*") (watchKey u))
        (parentKey u)) (childrenKey u) "*") (entityKey u') = hashAt st (entityKey u') := by
    intro st
    rw [hashAt_srem_ne _ _ (entityKey_ne_childrenKey u' u),
      hashAt_erase_ne _ (entityKey_ne_parentKey u' u),
      hashAt_erase_ne _ (entityKey_ne_watchKey u' u),
      hashAt_hdel_ne _ _ hne]
  have h2 : ∀ st : Store, hashAt
      (removeAttrs (setStr st (watchKey u) "") u (hashAt st (entityKey u))
        ((hashAt st (entityKey u)).map (·.1))) (entityKey u')
      = hashAt st (entityKey u') := by
    intro st
    rw [hashAt_removeAttrs_ne hu, hashAt_setStr_ne _ _ (entityKey_ne_watchKey u' u)]
  simp only [deleteS]
  split
  · split
    · rw [h3, h2]
    · rw [hashAt_srem_ne _ _ (entityKey_ne_childrenKey u' _), h3, h2]
  · rw [h3, h2]

theorem mem_index_deleteS_iff_of_ne {s : Store} {u u' k v : String}
    (hu : u' ≠ u) :
    u' ∈ setAt (deleteS s u) (indexKey k v) ↔ u' ∈ setAt s (indexKey k v) := by
  have h3 : ∀ st : Store,
      (u' ∈ setAt (srem (eraseKey (eraseKey (hdel st (entityKey u) "*")
          (watchKey u)) (parentKey u)) (childrenKey u) "*") (indexKey k v)) ↔
        u' ∈ setAt st (indexKey k v) := by
    intro st
    rw [setAt_srem_ne _ _ (indexKey_ne_childrenKey k v u),
      setAt_erase_ne _ (indexKey_ne_parentKey k v u),
      setAt_erase_ne _ (indexKey_ne_watchKey k v u),
      setAt_hdel_ne _ _ (fun hh => entityKey_ne_indexKey u k v hh.symm)]
  have h2 : ∀ st : Store,
      (u' ∈ setAt
        (removeAttrs (setStr st (watchKey u) "") u (hashAt st (entityKey u))
          ((hashAt st (entityKey u)).map (·.1))) (indexKey k v)) ↔
        u' ∈ setAt st (indexKey k v) := by
    intro st
    rw [mem_setAt_removeAttrs_iff hu (fun hh => entityKey_ne_indexKey u k v hh.symm),
      setAt_setStr_ne _ _ (indexKey_ne_watchKey k v u)]
  simp only [deleteS]
  split
  · split
    · rw [h3, h2]
    · rw [mem_setAt_srem_iff_of_ne hu, h3, h2]
  · rw [h3, h2]

theorem deleteS_preserves_inv {s : Store} {u : String} (hinv : IndexInv s) :
    IndexInv (deleteS s u) := by
  intro u' k v hkcf
  by_cases hu : u' = u
  · subst hu
    rw [hashAt_deleteS_self]
    constructor
    · intro h
      simp [alookup] at h
    · intro hmem
      exfalso
      have h1 := mem_setAt_deleteS_tail_imp hmem
      have h2 := mem_setAt_removeAttrs_imp h1
      rw [setAt_setStr_ne _ _ (indexKey_ne_watchKey k v u')] at h2
      have h4 := (hinv u' k v hkcf).mpr h2
      exact not_mem_index_deleteS h4 hmem
  · rw [hashAt_deleteS_ne hu, mem_index_deleteS_iff_of_ne hu]
    exact hinv u' k v hkcf

/-!  Index-invariant preservation: apply. -/

theorem alookup_split {β : Type} {h : List (String × β)} {k : String} {v : β}
    (hl : alookup h k = some v) (hnd : (h.map (·.1)).Nodup) :
    ∃ l1 l2, h = l1 ++ (k, v) :: l2 ∧ k ∉ l1.map (·.1) ∧ k ∉ l2.map (·.1) := by
  obtain ⟨l1, l2, hsplit⟩ := List.append_of_mem (alookup_mem hl)
  subst hsplit
  rw [List.map_append, List.map_cons, List.nodup_append] at hnd
  refine ⟨l1, l2, rfl, ?_, ?_⟩
  · intro hmem
    exact hnd.2.2 hmem (List.mem_cons_self _ _)
  · exact (List.nodup_cons.mp hnd.2.1).1

theorem applyChange_preserves_inv {s : Store} {u : String} {change : PyDict}
    (hinv : IndexInv s) (hg : goodChange change) :
    IndexInv (applyChange s u change) := by
  obtain ⟨hnd, hcf⟩ := hg
  have hndq : ((updatesOf change).map (·.1)).Nodup := updatesOf_keys_nodup hnd
  have hcfu : ∀ kv ∈ updatesOf change, colonFree kv.1 = true := by
    intro kv hkv
    obtain ⟨hmem, hku⟩ := mem_updatesOf.mp
      (show (kv.1, kv.2) ∈ updatesOf change by simpa using hkv)
    exact hcf _ hmem hku
  have hcfr : ∀ k0 ∈ removalsOf change, colonFree k0 = true := by
    intro k0 hk0
    obtain ⟨hmem, hku⟩ := mem_removalsOf.mp hk0
    exact hcf _ hmem hku
  intro u' k v hkcf
  have hKe : indexKey k v ≠ entityKey u :=
    fun hh => entityKey_ne_indexKey u k v hh.symm
  have hs1set : setAt (setStr s (watchKey u) "") (indexKey k v)
      = setAt s (indexKey k v) :=
    setAt_setStr_ne s _ (indexKey_ne_watchKey k v u)
  simp only [applyChange]
  by_cases hu : u' = u
  · subst hu
    cases hql : alookup (updatesOf change) k with
    | some v0 =>
      -- k is updated to v0  by this apply
      obtain ⟨hmemc, hku⟩ := (alookup_updatesOf_some hnd).mp hql
      have hkrem : k ∉ removalsOf change := by
        intro hkr
        obtain ⟨hmemn, _⟩ := mem_removalsOf.mp hkr
        have h1 := mem_alookup hmemn hnd
        have h2 := mem_alookup hmemc hnd
        rw [h1] at h2
        have h3 : (none : Option String) = some v0 := by injection h2
        cases h3
      have hne : ¬(updatesOf change).isEmpty = true := by
        intro hh
        have h0 : updatesOf change = [] := by simpa [List.isEmpty_iff] using hh
        rw [h0] at hql
        simp [alookup] at hql
      have hhash : alookup
          (hashAt
            (updateIndexes
              (removeAttrs (setStr s (watchKey u') "") u'
                (hashAt s (entityKey u')) (removalsOf change)) u'
              (hashAt s (entityKey u')) (updatesOf change)) (entityKey u')) k
          = some v0 := by
        rw [updateIndexes_eq _ _ _ hne, hashAt_updFold, hashAt_hset_self _ _ hne]
        exact alookup_foldl_aset_of_some _ _ hndq hql
      rw [hhash]
      obtain ⟨l1, l2, hsplit, hkl1, hkl2⟩ := alookup_split hql hndq
      have hfr1 : ∀ kv ∈ l1, ∀ w : String, indexKey k v ≠ indexKey kv.1 w := by
        intro kv hkv w
        refine indexKey_ne_of_name_ne v w hkcf
          (hcfu kv (by rw [hsplit]; exact List.mem_append_left _ hkv)) ?_
        intro hh
        exact hkl1 (hh ▸ List.mem_map_of_mem (·.1) hkv)
      have hfr2 : ∀ kv ∈ l2, ∀ w : String, indexKey k v ≠ indexKey kv.1 w := by
        intro kv hkv w
        refine indexKey_ne_of_name_ne v w hkcf
          (hcfu kv (by
            rw [hsplit]
            exact List.mem_append_right _ (List.mem_cons_of_mem _ hkv))) ?_
        intro hh
        exact hkl2 (hh ▸ List.mem_map_of_mem (·.1) hkv)
      have hKiR : ∀ k0 ∈ removalsOf change, ∀ ov,
          alookup (hashAt s (entityKey u')) k0 = some ov →
          indexKey k v ≠ indexKey k0 ov := by
        intro k0 hk0 ov _
        refine indexKey_ne_of_name_ne v ov hkcf (hcfr k0 hk0) ?_
        intro hh
        exact hkrem (hh ▸ hk0)
      rw [updateIndexes_eq _ _ _ hne, hsplit, List.foldl_append, List.foldl_cons,
        setAt_updFold_frame u' _ l2 hfr2]
      simp only
      rw [mem_setAt_sadd_iff]
      by_cases hv : v = v0
      · subst hv
        simp
      · have hvne : indexKey k v ≠ indexKey k v0 :=
          indexKey_ne_of_value_ne hkcf hv
        have hsome : ¬(some v0 = some v) := by
          intro hh
          have h9 : v0 = v := by injection hh
          exact hv h9.symm
        have hXs : setAt
            (List.foldl
              (fun st kv =>
                sadd
                  (match alookup (hashAt s (entityKey u')) kv.1 with
                   | some ov => srem st (indexKey kv.1 ov) u'
                   | none => st)
                  (indexKey kv.1 kv.2) u')
              (hset
                (removeAttrs (setStr s (watchKey u') "") u'
                  (hashAt s (entityKey u')) (removalsOf change))
                (entityKey u') (l1 ++ (k, v0) :: l2)) l1) (indexKey k v)
            = setAt s (indexKey k v) := by
          rw [setAt_updFold_frame u' _ l1 hfr1, setAt_hset_ne _ _ hKe,
            setAt_removeAttrs_frame u' _ _ hKe hKiR, hs1set]
        cases hol : alookup (hashAt s (entityKey u')) k with
        | none =>
          simp only [hol]
          rw [hXs]
          constructor
          · intro hh
            exact absurd hh hsome
          · rintro (⟨hh, _⟩ | hmm)
            · exact absurd hh hvne
            · have h5 := (hinv u' k v hkcf).mpr hmm
              rw [hol] at h5
              cases h5
        | some ov =>
          simp only [hol]
          by_cases hov : ov = v
          · subst hov
            constructor
            · intro hh
              exact absurd hh hsome
            · rintro (⟨hh, _⟩ | hmm)
              · exact absurd hh hvne
              · exact absurd hmm (not_mem_setAt_srem_self _ _ _)
          · have hvov : indexKey k v ≠ indexKey k ov :=
              indexKey_ne_of_value_ne hkcf (fun hh => hov hh.symm)
            rw [setAt_srem_ne _ _ hvov, hXs]
            constructor
            · intro hh
              exact absurd hh hsome
            · rintro (⟨hh, _⟩ | hmm)
              · exact absurd hh hvne
              · have h5 := (hinv u' k v hkcf).mpr hmm
                rw [hol] at h5
                have h6 : ov = v := by injection h5
                exact absurd h6 hov
    | none =>
      -- k is not updated by this apply
      have hknu : k ∉ (updatesOf change).map (·.1) :=
        (alookup_eq_none_iff _ _).mp hql
      have hfru : ∀ kv ∈ updatesOf change, ∀ w : String,
          indexKey k v ≠ indexKey kv.1 w := by
        intro kv hkv w
        refine indexKey_ne_of_name_ne v w hkcf (hcfu kv hkv) ?_
        intro hh
        exact hknu (hh ▸ List.mem_map_of_mem (·.1) hkv)
      have hh1 : alookup
          (hashAt
            (updateIndexes
              (removeAttrs (setStr s (watchKey u') "") u'
                (hashAt s (entityKey u')) (removalsOf change)) u'
              (hashAt s (entityKey u')) (updatesOf change)) (entityKey u')) k
          = alookup
            (hashAt
              (removeAttrs (setStr s (watchKey u') "") u'
                (hashAt s (entityKey u')) (removalsOf change)) (entityKey u')) k := by
        by_cases hne : (updatesOf change).isEmpty = true
        · rw [updateIndexes_isEmpty _ _ _ hne]
        · rw [updateIndexes_eq _ _ _ hne, hashAt_updFold,
            hashAt_hset_self _ _ hne]
          exact alookup_foldl_aset_of_none _ _ hql
      have hh2 : hashAt
          (removeAttrs (setStr s (watchKey u') "") u'
            (hashAt s (entityKey u')) (removalsOf change)) (entityKey u')
          = (removalsOf change).foldl
              (fun h k =>
                match alookup (hashAt s (entityKey u')) k with
                | some _ => adel h k
                | none => h)
              (hashAt s (entityKey u')) := by
        rw [hashAt_removeAttrs_self]
        rw [hashAt_setStr_ne s _ (entityKey_ne_watchKey u' u')]
      have hset1 : (u' ∈ setAt
          (updateIndexes
            (removeAttrs (setStr s (watchKey u') "") u'
              (hashAt s (entityKey u')) (removalsOf change)) u'
            (hashAt s (entityKey u')) (updatesOf change)) (indexKey k v)) ↔
          u' ∈ setAt
            (removeAttrs (setStr s (watchKey u') "") u'
              (hashAt s (entityKey u')) (removalsOf change)) (indexKey k v) := by
        by_cases hne : (updatesOf change).isEmpty = true
        · rw [updateIndexes_isEmpty _ _ _ hne]
        · rw [updateIndexes_eq _ _ _ hne, setAt_updFold_frame u' _ _ hfru,
            setAt_hset_ne _ _ hKe]
      rw [hh1, hh2]
      rw [show (u' ∈ setAt
          (updateIndexes
            (removeAttrs (setStr s (watchKey u') "") u'
              (hashAt s (entityKey u')) (removalsOf change)) u'
            (hashAt s (entityKey u')) (updatesOf change)) (indexKey k v)) =
          (u' ∈ setAt
            (removeAttrs (setStr s (watchKey u') "") u'
              (hashAt s (entityKey u')) (removalsOf change)) (indexKey k v))
        from propext hset1]
      by_cases hkr : k ∈ removalsOf change
      · cases hol : alookup (hashAt s (entityKey u')) k with
        | some ov =>
          rw [guardedFold_of_mem _ hkr (by rw [hol]; rfl)]
          by_cases hov : ov = v
          · subst hov
            constructor
            · intro hh
              cases hh
            · intro hmm
              exact absurd hmm (not_mem_setAt_removeAttrs hkr hol)
          · have hKiR : ∀ k0 ∈ removalsOf change, ∀ w,
                alookup (hashAt s (entityKey u')) k0 = some w →
                indexKey k v ≠ indexKey k0 w := by
              intro k0 hk0 w hw
              by_cases hk0k : k0 = k
              · subst hk0k
                rw [hol] at hw
                have hwov : w = ov := by
                  have : ov = w := by injection hw
                  exact this.symm
                subst hwov
                exact indexKey_ne_of_value_ne hkcf (fun hh => hov hh.symm)
              · exact indexKey_ne_of_name_ne v w hkcf (hcfr k0 hk0)
                  (fun hh => hk0k (hh.symm))
            rw [setAt_removeAttrs_frame u' _ _ hKe hKiR, hs1set]
            constructor
            · intro hh
              cases hh
            · intro hmm
              have h5 := (hinv u' k v hkcf).mpr hmm
              rw [hol] at h5
              have h6 : ov = v := by injection h5
              exact absurd h6 hov
        | none =>
          rw [guardedFold_of_old_none _ _ hol]
          have hKiR : ∀ k0 ∈ removalsOf change, ∀ w,
              alookup (hashAt s (entityKey u')) k0 = some w →
              indexKey k v ≠ indexKey k0 w := by
            intro k0 hk0 w hw
            by_cases hk0k : k0 = k
            · subst hk0k
              rw [hol] at hw
              cases hw
            · exact indexKey_ne_of_name_ne v w hkcf (hcfr k0 hk0)
                (fun hh => hk0k (hh.symm))
          rw [setAt_removeAttrs_frame u' _ _ hKe hKiR, hs1set, hol]
          constructor
          · intro hh
            cases hh
          · intro hmm
            have h5 := (hinv u' k v hkcf).mpr hmm
            rw [hol] at h5
            cases h5
      · rw [guardedFold_of_not_mem _ hkr]
        have hKiR : ∀ k0 ∈ removalsOf change, ∀ w,
            alookup (hashAt s (entityKey u')) k0 = some w →
            indexKey k v ≠ indexKey k0 w := by
          intro k0 hk0 w _
          refine indexKey_ne_of_name_ne v w hkcf (hcfr k0 hk0) ?_
          intro hh
          exact hkr (hh ▸ hk0)
        rw [setAt_removeAttrs_frame u' _ _ hKe hKiR, hs1set]
        exact hinv u' k v hkcf
  · -- an entity other than the one being applied to is untouched
    have hne' : entityKey u' ≠ entityKey u := fun hh => hu (entityKey_inj hh)
    have ha : hashAt
        (updateIndexes
          (removeAttrs (setStr s (watchKey u) "") u
            (hashAt s (entityKey u)) (removalsOf change)) u
          (hashAt s (entityKey u)) (updatesOf change)) (entityKey u')
        = hashAt s (entityKey u') := by
      have htail : hashAt
          (removeAttrs (setStr s (watchKey u) "") u
            (hashAt s (entityKey u)) (removalsOf change)) (entityKey u')
          = hashAt s (entityKey u') := by
        rw [hashAt_removeAttrs_ne hu,
          hashAt_setStr_ne s _ (entityKey_ne_watchKey u' u)]
      by_cases hne : (updatesOf change).isEmpty = true
      · rw [updateIndexes_isEmpty _ _ _ hne, htail]
      · rw [updateIndexes_eq _ _ _ hne, hashAt_updFold,
          hashAt_hset_ne _ _ hne', htail]
    have hb : (u' ∈ setAt
        (updateIndexes
          (removeAttrs (setStr s (watchKey u) "") u
            (hashAt s (entityKey u)) (removalsOf change)) u
          (hashAt s (entityKey u)) (updatesOf change)) (indexKey k v)) ↔
        u' ∈ setAt s (indexKey k v) := by
      have hKe2 : indexKey k v ≠ entityKey u :=
        fun hh => entityKey_ne_indexKey u k v hh.symm
      have htail : (u' ∈ setAt
          (removeAttrs (setStr s (watchKey u) "") u
            (hashAt s (entityKey u)) (removalsOf change)) (indexKey k v)) ↔
          u' ∈ setAt s (indexKey k v) := by
        rw [mem_setAt_removeAttrs_iff hu hKe2,
          setAt_setStr_ne s _ (indexKey_ne_watchKey k v u)]
      by_cases hne : (updatesOf change).isEmpty = true
      · rw [updateIndexes_isEmpty _ _ _ hne]
        exact htail
      · rw [updateIndexes_eq _ _ _ hne, mem_setAt_updFold_of_ne u _ _ hu,
          setAt_hset_ne _ _ hKe2]
        exact htail
    rw [ha]
    rw [show (u' ∈ setAt
        (updateIndexes
          (removeAttrs (setStr s (watchKey u) "") u
            (hashAt s (entityKey u)) (removalsOf change)) u
          (hashAt s (entityKey u)) (updatesOf change)) (indexKey k v)) =
        (u' ∈ setAt s (indexKey k v)) from propext hb]
    exact hinv u' k v hkcf

/-!  Further keyspace disjointness facts. -/

theorem parentKey_ne_watchKey (a b : String) : parentKey a ≠ watchKey b := by
  intro h
  have hd := congrArg String.data h
  rw [parentKey_data, watchKey_data] at hd
  have hc := List.head_eq_of_cons_eq hd
  simp at hc

theorem childrenKey_ne_watchKey (a b : String) : childrenKey a ≠ watchKey b := by
  intro h
  have hd := congrArg String.data h
  rw [childrenKey_data, watchKey_data] at hd
  have hc := List.head_eq_of_cons_eq hd
  simp at hc

theorem childrenKey_ne_parentKey (a b : String) : childrenKey a ≠ parentKey b := by
  intro h
  have hd := congrArg String.data h
  rw [childrenKey_data, parentKey_data] at hd
  have hc := List.head_eq_of_cons_eq hd
  simp at hc

theorem uniqueSetKey_ne_head_i {x : String} {c : Char} :
    (uniqueSetKey x).data.head? = some c → c = 'u' := by
  rw [uniqueSetKey_data]
  intro h
  have h2 : some 'u' = some c := by simpa using h
  have h3 : 'u' = c := by injection h2
  exact h3.symm

/-!  Dictionary helpers used by the round-trip and upsert claims. -/

theorem alookup_append_of_not_mem {β : Type} {l1 : List (String × β)}
    (l2 : List (String × β)) {k : String} (hk : k ∉ l1.map (·.1)) :
    alookup (l1 ++ l2) k = alookup l2 k := by
  induction l1 with
  | nil => rfl
  | cons kv rest ih =>
    obtain ⟨k0, v0⟩ := kv
    have h1 : ¬(k0 = k) := by
      intro hh
      exact hk (by simp [hh])
    have h2 : k ∉ rest.map (·.1) := fun hh => hk (List.mem_cons_of_mem _ hh)
    simp [alookup, h1, ih h2]

theorem adel_append {β : Type} (l1 l2 : List (String × β)) (k : String) :
    adel (l1 ++ l2) k = adel l1 k ++ adel l2 k := by
  induction l1 with
  | nil => rfl
  | cons kv rest ih =>
    obtain ⟨k0, v0⟩ := kv
    by_cases hk : k0 = k
    · simp [adel, hk, ih]
    · simp [adel, hk, ih]

theorem adel_of_not_mem {β : Type} {h : List (String × β)} {k : String}
    (hk : k ∉ h.map (·.1)) : adel h k = h := by
  induction h with
  | nil => rfl
  | cons kv rest ih =>
    obtain ⟨k0, v0⟩ := kv
    have h1 : ¬(k0 = k) := by
      intro hh
      exact hk (by simp [hh])
    have h2 : k ∉ rest.map (·.1) := fun hh => hk (List.mem_cons_of_mem _ hh)
    simp [adel, h1, ih h2]

theorem concreteAttrs_lift (attrs : AList) :
    concreteAttrs (attrs.map (fun kv => (kv.1, some kv.2))) = attrs := by
  induction attrs with
  | nil => rfl
  | cons kv rest ih =>
    obtain ⟨k0, v0⟩ := kv
    simp [concreteAttrs] at ih ⊢
    exact ih

theorem lift_keys (attrs : AList) :
    (attrs.map (fun kv => (kv.1, some kv.2))).map (·.1) = attrs.map (·.1) := by
  induction attrs with
  | nil => rfl
  | cons kv rest ih => simp [ih]

/-!  The hash and linkage produced by create. -/

theorem hashAt_createS_self {s : Store} {u : String} (p : String) {attrs : AList}
    (hfresh : hashAt s (entityKey u) = [])
    (hnd : (attrs.map (·.1)).Nodup) :
    hashAt (createS s p u attrs) (entityKey u) = attrs := by
  have hhash : hashAt (createS s p u attrs) (entityKey u) =
      hashAt (hset s (entityKey u) attrs) (entityKey u) := by
    unfold createS
    rw [hashAt_sadd_ne _ _ (entityKey_ne_childrenKey u p),
      hashAt_setStr_ne _ _ (entityKey_ne_parentKey u u),
      hashAt_createFold]
  rw [hhash]
  by_cases hae : attrs.isEmpty = true
  · have h0 : attrs = [] := by simpa [List.isEmpty_iff] using hae
    rw [hset_isEmpty s _ hae, hfresh, h0]
  · rw [hashAt_hset_self s _ hae, hfresh]
    rw [foldl_aset_fresh attrs [] hnd (by intro x _ hx; simp at hx)]
    rfl

/-!  Frames across a whole apply, and the upsert behaviour on a missing
entity. -/

theorem strAt_applyChange (s : Store) (u : String) (change : PyDict)
    {K : String} (hKw : ∀ w, K ≠ watchKey w) (hKe : ∀ w, K ≠ entityKey w)
    (hKi : ∀ a v, K ≠ indexKey a v) :
    strAt (applyChange s u change) K = strAt s K := by
  simp only [applyChange]
  by_cases hne : (updatesOf change).isEmpty = true
  · rw [updateIndexes_isEmpty _ _ _ hne, strAt_removeAttrs _ _ _ hKe hKi,
      strAt_setStr_ne _ _ (hKw u)]
  · rw [updateIndexes_eq _ _ _ hne, strAt_updFold _ _ _ hKi,
      strAt_hset_ne _ _ (hKe u), strAt_removeAttrs _ _ _ hKe hKi,
      strAt_setStr_ne _ _ (hKw u)]

theorem setAt_applyChange_frame (s : Store) (u : String) (change : PyDict)
    {K : String} (hKw : ∀ w, K ≠ watchKey w) (hKe : ∀ w, K ≠ entityKey w)
    (hKi : ∀ a v, K ≠ indexKey a v) :
    setAt (applyChange s u change) K = setAt s K := by
  simp only [applyChange]
  have hrem : setAt
      (removeAttrs (setStr s (watchKey u) "") u (hashAt s (entityKey u))
        (removalsOf change)) K = setAt s K := by
    rw [setAt_removeAttrs_frame u _ _ (hKe u)
      (fun k0 _ ov _ => hKi k0 ov), setAt_setStr_ne _ _ (hKw u)]
  by_cases hne : (updatesOf change).isEmpty = true
  · rw [updateIndexes_isEmpty _ _ _ hne, hrem]
  · rw [updateIndexes_eq _ _ _ hne,
      setAt_updFold_frame u _ _ (fun kv _ w => hKi kv.1 w),
      setAt_hset_ne _ _ (hKe u), hrem]

theorem mem_setAt_updFold_nil_mono (u : String) (l : AList) {K y : String} :
    ∀ st : Store, y ∈ setAt st K →
      y ∈ setAt
        (l.foldl
          (fun st kv =>
            sadd
              (match alookup ([] : AList) kv.1 with
               | some ov => srem st (indexKey kv.1 ov) u
               | none => st)
              (indexKey kv.1 kv.2) u)
          st) K := by
  induction l with
  | nil => intro st h; exact h
  | cons kv rest ih =>
    intro st h
    simp only [List.foldl_cons, alookup]
    exact ih _ (mem_setAt_sadd_iff.mpr (Or.inr h))

theorem mem_setAt_updFold_nil_of_mem (u : String) {l : AList} {k v : String}
    (hmem : (k, v) ∈ l) :
    ∀ st : Store,
      u ∈ setAt
        (l.foldl
          (fun st kv =>
            sadd
              (match alookup ([] : AList) kv.1 with
               | some ov => srem st (indexKey kv.1 ov) u
               | none => st)
              (indexKey kv.1 kv.2) u)
          st) (indexKey k v) := by
  induction l with
  | nil => simp at hmem
  | cons kv0 rest ih =>
    intro st
    rcases List.mem_cons.mp hmem with heq | htail
    · subst heq
      simp only [List.foldl_cons, alookup]
      exact mem_setAt_updFold_nil_mono u rest _
        (mem_setAt_sadd_iff.mpr (Or.inl ⟨rfl, rfl⟩))
    · simp only [List.foldl_cons, alookup]
      exact ih htail _

theorem hashAt_applyChange_missing {s : Store} {u : String} {change : PyDict}
    (h0 : hashAt s (entityKey u) = [])
    (hnd : (change.map (·.1)).Nodup) :
    hashAt (applyChange s u change) (entityKey u) = updatesOf change := by
  simp only [applyChange]
  rw [h0, removeAttrs_old_nil]
  have hbase : hashAt (setStr s (watchKey u) "") (entityKey u) = [] := by
    rw [hashAt_setStr_ne s _ (entityKey_ne_watchKey u u), h0]
  by_cases hne : (updatesOf change).isEmpty = true
  · rw [updateIndexes_isEmpty _ _ _ hne, hbase]
    have h1 : updatesOf change = [] := by simpa [List.isEmpty_iff] using hne
    rw [h1]
  · rw [updateIndexes_eq _ _ _ hne, hashAt_updFold, hashAt_hset_self _ _ hne,
      hbase]
    rw [foldl_aset_fresh _ [] (updatesOf_keys_nodup hnd)
      (by intro x _ hx; simp at hx)]
    rfl

theorem mem_index_applyChange_missing {s : Store} {u : String} {change : PyDict}
    {k v : String} (h0 : hashAt s (entityKey u) = [])
    (hmem : (k, some v) ∈ change) (hku : k ≠ "uuid") :
    u ∈ setAt (applyChange s u change) (indexKey k v) := by
  simp only [applyChange]
  rw [h0, removeAttrs_old_nil]
  have hupd : (k, v) ∈ updatesOf change := mem_updatesOf.mpr ⟨hmem, hku⟩
  have hne : ¬(updatesOf change).isEmpty = true := by
    intro hh
    have h1 : updatesOf change = [] := by simpa [List.isEmpty_iff] using hh
    rw [h1] at hupd
    simp at hupd
  rw [updateIndexes_eq _ _ _ hne]
  exact mem_setAt_updFold_nil_of_mem u hupd _

/-!  The retry loop: at most three attempts, commit from the snapshot of the
first conflict-free attempt, exhaustion after three conflicts. -/

theorem runAttempts_all_conflict {conflict : Nat → Bool} {commit : Nat → Store}
    (h0 : conflict 0 = true) (h1 : conflict 1 = true) (h2 : conflict 2 = true) :
    runAttempts conflict commit 0 3 = .error .concurrencyExhausted := by
  simp [runAttempts, h0, h1, h2]

theorem runAttempts_first_success {conflict : Nat → Bool} {commit : Nat → Store}
    {i : Nat} (hi : i < 3) (hci : conflict i = false)
    (hprev : ∀ j, j < i → conflict j = true) :
    runAttempts conflict commit 0 3 = .ok (commit i) := by
  interval_cases i
  · simp [runAttempts, hci]
  · have h0 := hprev 0 (by omega)
    simp [runAttempts, h0, hci]
  · have h0 := hprev 0 (by omega)
    have h1 := hprev 1 (by omega)
    simp [runAttempts, h0, h1, hci]

/-!  The find pipeline. -/

theorem findFilters_cons (sfx : Nat → String) (k v : String)
    (rest : List (String × String)) (s : Store) (n : Nat) (acc : List String) :
    findFilters sfx ((k, v) :: rest) s n acc =
      if k = "parent" then findFilters sfx rest s n (acc ++ [childrenKey v])
      else if v.data.contains '*' || v.data.contains '?' || v.data.contains '[' then
        if (scanKeys s (indexPattern k v)).isEmpty then none
        else
          if 0 < (sunionstore s (uniqueSetKey (sfx n))
              (scanKeys s (indexPattern k v))).2 then
            findFilters sfx rest
              (sunionstore s (uniqueSetKey (sfx n))
                (scanKeys s (indexPattern k v))).1
              (n + 1) (acc ++ [uniqueSetKey (sfx n)])
          else none
      else findFilters sfx rest s n (acc ++ [indexKey k v]) := rfl

theorem findFilters_append (sfx : Nat → String) (xs ys : List (String × String)) :
    ∀ s n acc, findFilters sfx (xs ++ ys) s n acc =
      match findFilters sfx xs s n acc with
      | none => none
      | some (s', n', acc') => findFilters sfx ys s' n' acc' := by
  induction xs with
  | nil => intro s n acc; rfl
  | cons kv rest ih =>
    intro s n acc
    obtain ⟨k, v⟩ := kv
    rw [show ((k, v) :: rest) ++ ys = (k, v) :: (rest ++ ys) from rfl]
    rw [findFilters_cons, findFilters_cons]
    by_cases hp : k = "parent"
    · rw [if_pos hp, if_pos hp, ih]
    · rw [if_neg hp, if_neg hp]
      by_cases hw : (v.data.contains '*' || v.data.contains '?'
          || v.data.contains '[') = true
      · rw [if_pos hw, if_pos hw]
        by_cases hms : (scanKeys s (indexPattern k v)).isEmpty = true
        · rw [if_pos hms, if_pos hms]
        · rw [if_neg hms, if_neg hms]
          by_cases hcnt : 0 < (sunionstore s (uniqueSetKey (sfx n))
              (scanKeys s (indexPattern k v))).2
          · rw [if_pos hcnt, if_pos hcnt, ih]
          · rw [if_neg hcnt, if_neg hcnt]
      · rw [if_neg hw, if_neg hw, ih]

theorem mem_storeKeys_sunionstore {s : Store} {dest : String}
    {keys : List String} {key : String}
    (h : key ∈ storeKeys (sunionstore s dest keys).1) :
    key = dest ∨ key ∈ storeKeys s := by
  unfold sunionstore at h
  simp only at h
  by_cases he : (keys.foldl (fun acc k => (setAt s k).foldl addElem acc) []).isEmpty = true
  · rw [if_pos he] at h
    exact Or.inr (mem_storeKeys_erase h)
  · rw [if_neg he] at h
    exact mem_storeKeys_writeK h

theorem findFilters_keys_bound (sfx : Nat → String)
    (cs : List (String × String)) :
    ∀ s n acc s' n' acc', findFilters sfx cs s n acc = some (s', n', acc') →
      ∀ key ∈ storeKeys s',
        key ∈ storeKeys s ∨ ∃ m, key = uniqueSetKey (sfx m) := by
  induction cs with
  | nil =>
    intro s n acc s' n' acc' h key hk
    have h1 : s = s' := by
      simp [findFilters] at h
      exact h.1
    exact Or.inl (h1 ▸ hk)
  | cons kv rest ih =>
    intro s n acc s' n' acc' h key hk
    obtain ⟨k, v⟩ := kv
    rw [findFilters_cons] at h
    by_cases hp : k = "parent"
    · rw [if_pos hp] at h
      exact ih _ _ _ _ _ _ h key hk
    · rw [if_neg hp] at h
      by_cases hw : (v.data.contains '*' || v.data.contains '?'
          || v.data.contains '[') = true
      · rw [if_pos hw] at h
        by_cases hms : (scanKeys s (indexPattern k v)).isEmpty = true
        · rw [if_pos hms] at h
          cases h
        · rw [if_neg hms] at h
          by_cases hcnt : 0 < (sunionstore s (uniqueSetKey (sfx n))
              (scanKeys s (indexPattern k v))).2
          · rw [if_pos hcnt] at h
            rcases ih _ _ _ _ _ _ h key hk with hsub | hsub
            · rcases mem_storeKeys_sunionstore hsub with hd | hd
              · exact Or.inr ⟨n, hd⟩
              · exact Or.inl hd
            · exact Or.inr hsub
          · rw [if_neg hcnt] at h
            cases h
      · rw [if_neg hw] at h
        exact ih _ _ _ _ _ _ h key hk

theorem globMatchStr_indexPattern_head {k v key : String}
    (h : globMatchStr (indexPattern k v) key = true) :
    key.data.head? = some 'i' := by
  unfold globMatchStr at h
  rw [indexPattern_data] at h
  rw [show parseGlob ('i' :: ':' :: (k.data ++ ':' :: v.data)) =
      GTok.lit 'i' :: parseGlob (':' :: (k.data ++ ':' :: v.data)) from rfl] at h
  unfold gmatch at h
  cases hkd : key.data with
  | nil =>
    rw [hkd] at h
    simp [gmatchF] at h
  | cons c cs =>
    rw [hkd] at h
    simp only [List.length_cons, gmatchF, Bool.and_eq_true, beq_iff_eq] at h
    rw [h.1]
    rfl

theorem find_wildcard_short_circuit (s : Store) (sfx : Nat → String)
    (pre post : List (String × String)) (k v : String) (hk : k ≠ "parent")
    (hw : (v.data.contains '*' || v.data.contains '?'
      || v.data.contains '[') = true)
    (hscan : ∀ key ∈ storeKeys s, globMatchStr (indexPattern k v) key = false) :
    find s sfx (pre ++ (k, v) :: post) = [] := by
  unfold find
  rw [findFilters_append]
  cases hpre : findFilters sfx pre s 0 [] with
  | none => rfl
  | some res =>
    obtain ⟨s1, n1, acc1⟩ := res
    have hscan1 : scanKeys s1 (indexPattern k v) = [] := by
      unfold scanKeys
      rw [List.filter_eq_nil_iff]
      intro key hkey
      rcases findFilters_keys_bound sfx pre s 0 [] s1 n1 acc1 hpre key hkey with
        hins | ⟨m, hm⟩
      · intro hmatch
        rw [hscan key hins] at hmatch
        cases hmatch
      · subst hm
        intro hmatch
        have hh := globMatchStr_indexPattern_head hmatch
        have hc := uniqueSetKey_ne_head_i hh
        exact absurd hc (by decide)
    have hstep : findFilters sfx ((k, v) :: post) s1 n1 acc1 = none := by
      rw [findFilters_cons, if_neg hk, if_pos hw,
        if_pos (by rw [hscan1]; rfl)]
    simp only [hstep]

/-!  Claim-level theorems. -/

/-- C1: the claim says delete re-parents each former child of the deleted
entity to the deleted entity's parent.  Evaluating the code at a concrete
family (grandparent g1, entity e1, children c1 and c2): after delete(e1),
get_parent of each child still resolves through the deleted identifier e1
(returning its tombstone), not through g1; no re-parenting happens. -/
theorem delete_leaves_children_with_deleted_parent :
    deleteOp famStore [("uuid", some "e1")] = .ok famAfter ∧
    getParentOp famAfter "c1" = .ok [("uuid", "e1")] ∧
    getParentOp famAfter "c2" = .ok [("uuid", "e1")] ∧
    ("e1" : String) ≠ "g1" :=
  ⟨rfl, rfl, rfl, by decide⟩

/-- C3: the claim says delete clears (empties) the children set owned by the
deleted identifier.  Evaluating the code at the concrete family: the watch
token and parent pointer are deleted and the entity is removed from its
parent's children set, but `SREM children(e1) '*'` removes only the literal
member `*`, so the children set still holds c1 and c2. -/
theorem delete_does_not_clear_children_set :
    deleteOp famStore [("uuid", some "e1")] = .ok famAfter ∧
    strAt famAfter (watchKey "e1") = none ∧
    strAt famAfter (parentKey "e1") = none ∧
    "e1" ∉ setAt famAfter (childrenKey "g1") ∧
    setAt famAfter (childrenKey "e1") = ["c1", "c2"] :=
  ⟨rfl, rfl, rfl, by decide, rfl⟩

/-- C2 counterexample: the index invariant as claimed fails on a reachable
state.  Creating the same identifier twice with different values for the
same attribute leaves the identifier in both index sets while the hash
holds only the second value. -/
theorem duplicate_create_breaks_index_invariant :
    Reachable dupStore ∧
    "x" ∈ setAt dupStore (indexKey "k" "v1") ∧
    "x" ∈ setAt dupStore (indexKey "k" "v2") ∧
    ("v1" : String) ≠ "v2" ∧
    alookup (hashAt dupStore (entityKey "x")) "k" = some "v2" := by
  refine ⟨?_, by decide, by decide, by decide, rfl⟩
  have h1 : Reachable (createS [] "root" "x" [("k", "v1")]) :=
    Reachable.create Reachable.empty
      (show createOp [] "root" [("k", some "v1"), ("uuid", some "x")]
        = .ok (createS [] "root" "x" [("k", "v1")],
            [("k", some "v1"), ("uuid", some "x")]) from rfl)
  exact Reachable.create h1
    (show createOp (createS [] "root" "x" [("k", "v1")]) "root"
        [("k", some "v2"), ("uuid", some "x")]
      = .ok (dupStore, [("k", some "v2"), ("uuid", some "x")]) from rfl)

/-- C2 (amended): in every state reachable through creates on fresh
identifiers and changes whose attribute names are colon-free dict keys, an
entity holds value v for attribute k exactly when its identifier is in
index(k, v); in particular it is never in two indexes of the same
attribute at once.  Preserved by create, apply and delete. -/
theorem reachableWF_index_invariant : ∀ s : Store, ReachableWF s → IndexInv s := by
  intro s h
  induction h with
  | empty =>
    intro u k v _
    simp [hashAt, findK, setAt, alookup]
  | create _ hga hfresh ih => exact createS_preserves_inv ih hga hfresh
  | applyc _ hgc ih => exact applyChange_preserves_inv ih hgc
  | delete _ ih => exact deleteS_preserves_inv ih

/-- Witness for the amended C2 at a concrete reachable store. -/
theorem reachableWF_index_invariant_witness :
    IndexInv (createS [] "root" "a1" [("name", "Alice")]) :=
  reachableWF_index_invariant _
    (ReachableWF.create ReachableWF.empty ⟨by decide, by decide⟩ rfl)

theorem lift_any_isNone (attrs : AList) :
    (attrs.map (fun kv => (kv.1, some kv.2))).any (fun kv => kv.2.isNone)
      = false := by
  induction attrs with
  | nil => rfl
  | cons kv rest ih => simp [ih]

/-- C4 counterexample: the claim quantifies over every entity carrying a
non-empty identifier, but an entity whose only key is the identifier leads
create to call HSET with an empty mapping, which the client refuses with
DataError before writing anything, so create does not return the entity as
given there. -/
theorem attrless_create_raises_data_error :
    createOp [] "root" [("uuid", some "u1")] = .error .dataError := rfl

/-- C4 (amended): creating an entity that carries a fresh non-empty
identifier and at least one attribute besides it returns the entity as
given, and get then returns exactly its attribute mapping plus the
identifier; an entity with no attribute besides the identifier is instead
refused by the client with DataError. -/
theorem create_get_round_trip (s : Store) (p u : String) (attrs : AList)
    (_hu : u ≠ "") (hattrs : attrs ≠ [])
    (hfresh : hashAt s (entityKey u) = [])
    (hnd : (attrs.map (·.1)).Nodup) (huuid : "uuid" ∉ attrs.map (·.1)) :
    createOp s p (attrs.map (fun kv => (kv.1, some kv.2)) ++ [("uuid", some u)])
      = .ok (createS s p u attrs,
          attrs.map (fun kv => (kv.1, some kv.2)) ++ [("uuid", some u)]) ∧
    getOp (createS s p u attrs) u = attrs ++ [("uuid", u)] := by
  have hlk : alookup
      (attrs.map (fun kv => (kv.1, some kv.2)) ++ [("uuid", some u)]) "uuid"
      = some (some u) := by
    rw [alookup_append_of_not_mem _ (by rw [lift_keys]; exact huuid)]
    rfl
  constructor
  · unfold createOp
    rw [hlk]
    have hadel : adel
        (attrs.map (fun kv => (kv.1, some kv.2)) ++ [("uuid", some u)]) "uuid"
        = attrs.map (fun kv => (kv.1, some kv.2)) := by
      rw [adel_append, adel_of_not_mem (by rw [lift_keys]; exact huuid)]
      simp [adel]
    simp only [hadel]
    have hc1 : ¬((attrs.map (fun kv => (kv.1, some kv.2))).isEmpty = true) := by
      cases attrs with
      | nil => exact absurd rfl hattrs
      | cons kv rest => simp
    have hc2 : ¬((attrs.map (fun kv => (kv.1, some kv.2))).any
        (fun kv => kv.2.isNone) = true) := by
      rw [lift_any_isNone]
      exact Bool.false_ne_true
    rw [if_neg hc1, if_neg hc2, concreteAttrs_lift]
  · unfold getOp
    rw [hashAt_createS_self p hfresh hnd, aset_fresh attrs u huuid]

/-- Witness for the amended C4 at a concrete creation. -/
theorem create_get_round_trip_witness :
    getOp (createS [] "root" "x1" [("name", "Acme")]) "x1"
      = [("name", "Acme"), ("uuid", "x1")] :=
  (create_get_round_trip [] "root" "x1" [("name", "Acme")] (by decide)
    (by decide) rfl (by decide) (by decide)).2

/-- C5: after delete, get returns the tombstone record holding only the
identifier, and the identifier is absent from the index of every attribute
pair the entity held at deletion time. -/
theorem delete_tombstone_and_index_removal (s : Store) (e : PyDict) (u : String)
    (hid : alookup e "uuid" = some (some u)) :
    deleteOp s e = .ok (deleteS s u) ∧
    getOp (deleteS s u) u = [("uuid", u)] ∧
    ∀ k v, alookup (hashAt s (entityKey u)) k = some v →
      u ∉ setAt (deleteS s u) (indexKey k v) := by
  refine ⟨?_, ?_, ?_⟩
  · unfold deleteOp
    rw [hid]
    rfl
  · unfold getOp
    rw [hashAt_deleteS_self]
    rfl
  · intro k v hkv
    exact not_mem_index_deleteS hkv

/-- Witness for C5 at the concrete family store. -/
theorem delete_tombstone_and_index_removal_witness :
    getOp (deleteS famStore "e1") "e1" = [("uuid", "e1")] ∧
    "e1" ∉ setAt (deleteS famStore "e1") (indexKey "name" "E") := by
  have h := delete_tombstone_and_index_removal famStore [("uuid", some "e1")]
    "e1" rfl
  exact ⟨h.2.1, h.2.2 "name" "E" (by decide)⟩

/-- C6: with entities whose `name` attribute takes exactly the values
Alice, Anna and Bob, `find(name="A*")` returns exactly the entities named
Alice and Anna; and any wildcard criterion whose glob matches no key in
the store short-circuits the whole query to no results, regardless of the
other criteria before or after it. -/
theorem find_wildcard_and_short_circuit :
    (find namesStore (fun _ => "t") [("name", "A*")] =
      [[("name", "Alice"), ("uuid", "a1")],
       [("name", "Anna"), ("uuid", "a2")]]) ∧
    (∀ (s : Store) (sfx : Nat → String) (pre post : List (String × String))
        (k v : String), k ≠ "parent" →
      (v.data.contains '*' || v.data.contains '?'
        || v.data.contains '[') = true →
      (∀ key ∈ storeKeys s, globMatchStr (indexPattern k v) key = false) →
      find s sfx (pre ++ (k, v) :: post) = []) := by
  constructor
  · decide
  · intro s sfx pre post k v hk hw hscan
    exact find_wildcard_short_circuit s sfx pre post k v hk hw hscan

/-- Witness for C6's short-circuit half at a concrete store and criterion. -/
theorem find_wildcard_and_short_circuit_witness :
    find namesStore (fun _ => "t") [("name", "Z*")] = [] :=
  find_wildcard_and_short_circuit.2 namesStore (fun _ => "t") [] [] "name" "Z*"
    (by decide) (by decide) (by decide)

/-- C7: when the optimistic precondition of an apply or delete attempt
fails, the attempt's work is discarded and the operation retries from the
next attempt's fresh snapshot, for at most three attempts in total;
conflicts on all three attempts surface ConcurrencyExhausted and no change
is committed, while a conflict-free attempt i commits exactly the effect
computed from attempt i's snapshot. -/
theorem retry_bound_and_snapshot (conflict : Nat → Bool) (states : Nat → Store)
    (change entity : PyDict) (uc ue : Option String)
    (hc : alookup change "uuid" = some uc)
    (he : alookup entity "uuid" = some ue) :
    ((conflict 0 = true ∧ conflict 1 = true ∧ conflict 2 = true) →
      applyWithRetry conflict states change = .error .concurrencyExhausted ∧
      deleteWithRetry conflict states entity = .error .concurrencyExhausted) ∧
    (∀ i, i < 3 → conflict i = false → (∀ j, j < i → conflict j = true) →
      applyWithRetry conflict states change =
        .ok (applyChange (states i) (pyStr uc) change) ∧
      deleteWithRetry conflict states entity =
        .ok (deleteS (states i) (pyStr ue))) := by
  constructor
  · rintro ⟨h0, h1, h2⟩
    constructor
    · unfold applyWithRetry
      rw [hc]
      exact runAttempts_all_conflict h0 h1 h2
    · unfold deleteWithRetry
      rw [he]
      exact runAttempts_all_conflict h0 h1 h2
  · intro i hi hci hprev
    constructor
    · unfold applyWithRetry
      rw [hc]
      exact runAttempts_first_success hi hci hprev
    · unfold deleteWithRetry
      rw [he]
      exact runAttempts_first_success hi hci hprev

/-- Witness for C7: three conflicts exhaust the bound; success on the third
attempt commits from that attempt's snapshot. -/
theorem retry_bound_and_snapshot_witness :
    applyWithRetry (fun _ => true) (fun _ => []) [("uuid", some "x")]
      = .error .concurrencyExhausted ∧
    deleteWithRetry (fun n => decide (n < 2)) (fun _ => []) [("uuid", some "x")]
      = .ok (deleteS [] "x") := by
  have h1 := retry_bound_and_snapshot (fun _ => true) (fun _ => [])
    [("uuid", some "x")] [("uuid", some "x")] (some "x") (some "x") rfl rfl
  have h2 := retry_bound_and_snapshot (fun n => decide (n < 2)) (fun _ => [])
    [("uuid", some "x")] [("uuid", some "x")] (some "x") (some "x") rfl rfl
  exact ⟨(h1.1 ⟨rfl, rfl, rfl⟩).1, (h2.2 2 (by decide) (by decide)
    (by intro j hj; interval_cases j <;> decide)).2⟩

/-- C8 counterexample: the claim says create fails fast with InvalidEntity
for every entity lacking a non-empty identifier, but an entity whose
identifier is the empty string (and which carries an ordinary attribute,
so the client's empty-mapping check does not fire) is accepted without any
error, and the store is written: its parent pointer is created. -/
theorem empty_identifier_create_accepted :
    createOp [] "p1" [("uuid", some ""), ("name", some "x")]
      = .ok (createS [] "p1" "" [("name", "x")],
          [("uuid", some ""), ("name", some "x")]) ∧
    strAt (createS [] "p1" "" [("name", "x")]) (parentKey "") = some "p1" ∧
    "" ∈ setAt (createS [] "p1" "" [("name", "x")]) (childrenKey "p1") :=
  ⟨rfl, rfl, by decide⟩

/-- C8 (amended): create fails fast with InvalidEntity exactly when the
identifier key is absent or null; apply and delete fail fast exactly when
the identifier key is absent.  A null or empty-string identifier passes
the apply and delete guards, and an empty-string identifier with ordinary
attributes passes the create guard and the store is written; create only
raises further, with the client's DataError rather than InvalidEntity, when
the attribute mapping besides the identifier is empty or holds a null
value.  In every failing case the operation returns before touching the
store. -/
theorem identifier_guard_characterization (s : Store) (p : String) (d : PyDict) :
    (createOp s p d = .error .invalidEntity ↔
      (alookup d "uuid" = none ∨ alookup d "uuid" = some none)) ∧
    (applyOp s d = .error .invalidEntity ↔ alookup d "uuid" = none) ∧
    (deleteOp s d = .error .invalidEntity ↔ alookup d "uuid" = none) := by
  refine ⟨?_, ?_, ?_⟩
  · unfold createOp
    cases h : alookup d "uuid" with
    | none => simp
    | some uv =>
      cases uv with
      | none => simp
      | some u =>
        simp only
        constructor
        · intro hh
          split at hh
          · cases hh
          · split at hh
            · cases hh
            · cases hh
        · rintro (hh | hh) <;> cases hh
  · unfold applyOp
    cases h : alookup d "uuid" <;> simp
  · unfold deleteOp
    cases h : alookup d "uuid" <;> simp

/-- C9 counterexample: the index keyspace mapping is not injective; the
pairs ("a:b", "c") and ("a", "b:c") are distinct but share the index
address `i:a:b:c`. -/
theorem indexKey_collision :
    indexKey "a:b" "c" = indexKey "a" "b:c" ∧
    (("a:b", "c") : String × String) ≠ ("a", "b:c") := ⟨rfl, by decide⟩

/-- C9 (amended): restricted to colon-free attribute names, the mapping
from (attribute name, attribute value) pairs to index addresses is
injective, so no two such distinct pairs share an index set. -/
theorem indexKey_injective_on_colon_free_names (k v k' v' : String)
    (hk : colonFree k = true) (hk' : colonFree k' = true)
    (heq : indexKey k v = indexKey k' v') : k = k' ∧ v = v' :=
  indexKey_inj hk hk' heq

/-- Witness for the amended C9 at a concrete pair. -/
theorem indexKey_injective_on_colon_free_names_witness :
    ("name" : String) = "name" ∧ ("Alice" : String) = "Alice" :=
  indexKey_injective_on_colon_free_names "name" "Alice" "name" "Alice"
    (by decide) (by decide) rfl

/-- C10: applying a change to an identifier that was never created succeeds
without any not-found failure: the non-null values become the new attribute
mapping, the identifier joins the matching index sets, and no parent
pointer and no children-set membership is created for it. -/
theorem apply_missing_entity_upserts (s : Store) (change : PyDict) (u : String)
    (hid : alookup change "uuid" = some (some u))
    (h0 : hashAt s (entityKey u) = [])
    (hnd : (change.map (·.1)).Nodup) :
    applyOp s change = .ok (applyChange s u change) ∧
    hashAt (applyChange s u change) (entityKey u) = updatesOf change ∧
    (∀ k v, (k, some v) ∈ change → k ≠ "uuid" →
      u ∈ setAt (applyChange s u change) (indexKey k v)) ∧
    strAt (applyChange s u change) (parentKey u) = strAt s (parentKey u) ∧
    (∀ p, setAt (applyChange s u change) (childrenKey p)
      = setAt s (childrenKey p)) := by
  refine ⟨?_, hashAt_applyChange_missing h0 hnd, ?_, ?_, ?_⟩
  · unfold applyOp
    rw [hid]
    rfl
  · intro k v hm hku
    exact mem_index_applyChange_missing h0 hm hku
  · exact strAt_applyChange s u change (fun w => parentKey_ne_watchKey u w)
      (fun w hh => entityKey_ne_parentKey w u hh.symm)
      (fun a v hh => indexKey_ne_parentKey a v u hh.symm)
  · intro p
    exact setAt_applyChange_frame s u change
      (fun w => childrenKey_ne_watchKey p w)
      (fun w hh => entityKey_ne_childrenKey w p hh.symm)
      (fun a v hh => indexKey_ne_childrenKey a v p hh.symm)

/-- Witness for C10 at a concrete upsert. -/
theorem apply_missing_entity_upserts_witness :
    hashAt (applyChange [] "n1" [("uuid", some "n1"), ("name", some "Neo")])
      (entityKey "n1") = [("name", "Neo")] ∧
    "n1" ∈ setAt (applyChange [] "n1" [("uuid", some "n1"), ("name", some "Neo")])
      (indexKey "name" "Neo") := by
  have h := apply_missing_entity_upserts [] [("uuid", some "n1"),
    ("name", some "Neo")] "n1" rfl rfl (by decide)
  exact ⟨h.2.1, h.2.2.1 "name" "Neo" (by decide) (by decide)⟩

end Hotcore
